import Mathlib

/-!
Verification development for the `tblfmt` table-formatting library.

The library's core primitives are shallowly embedded here:
* the byte-escaper `FormatBytes` (fmt.go) together with the `Value`
  width-measurement functions `LineWidth`, `MaxWidth` and `tabwidth`;
* the crosstab (pivot) view construction (view.go);
* the width-calculation and result-set-iteration skeleton of the
  aligned table encoder (encode.go).

Go byte slices are modelled as `List Nat` (each element a byte value),
runes as `Nat` code points, and Go `int` quantities (widths, offsets,
positions), all of which are non-negative in the modelled code, as `Nat`.
External collaborators (the `go-runewidth` width tables, `strconv.IsGraphic`,
`unicode.IsSpace` on runes, and the `unicode.SimpleFold` based rune folding
of `strings.EqualFold`) are kept as parameters, so every theorem holds for
any choice of those tables; witnesses instantiate them concretely.
-/

namespace Tblfmt

/-- A token produced by one iteration of the lazy UTF-8 decoding loop of
`FormatBytes`: either a decoded rune, or a single invalid byte (the case
`w == 1 && r == utf8.RuneError` in the Go code, which keeps the offending
byte for hex-escaping). -/
inductive Tok where
  | rune (r : Nat)
  | invalid (b : Nat)
deriving DecidableEq, Repr

/-- The rune a token stands for; an invalid byte is displayed as the
replacement character U+FFFD. -/
def Tok.runeOf : Tok → Nat
  | .rune r => r
  | .invalid _ => 0xFFFD

/-- Whether the token is an invalid byte. -/
def Tok.isInv : Tok → Bool
  | .rune _ => false
  | .invalid _ => true

/-- The `first` table of Go's `unicode/utf8` package, condensed: for a
leading byte of a multi-byte sequence, the declared sequence size and the
acceptance range for the second byte; `none` for bytes that can never
start a sequence (`0x80`–`0xC1`, `0xF5`–`0xFF`). -/
def utf8First (b : Nat) : Option (Nat × Nat × Nat) :=
  if b < 0xC2 then none
  else if b ≤ 0xDF then some (2, 0x80, 0xBF)
  else if b = 0xE0 then some (3, 0xA0, 0xBF)
  else if b = 0xED then some (3, 0x80, 0x9F)
  else if b ≤ 0xEF then some (3, 0x80, 0xBF)
  else if b = 0xF0 then some (4, 0x90, 0xBF)
  else if b ≤ 0xF3 then some (4, 0x80, 0xBF)
  else if b = 0xF4 then some (4, 0x80, 0x8F)
  else none

/-- Decoding of one multi-byte UTF-8 sequence, following
`utf8.DecodeRune`: given the first byte `b` (with `b ≥ 0x80`) and the
remaining input, return the decoded rune and how many bytes of the
remaining input belong to the sequence.  Every failure of `DecodeRune`
returns `(RuneError, 1)` in Go, i.e. zero extra bytes here. -/
def utf8DecodeTail (b : Nat) (rest : List Nat) : Nat × Nat :=
  match utf8First b with
  | none => (0xFFFD, 0)
  | some (sz, lo, hi) =>
    match rest with
    | [] => (0xFFFD, 0)
    | b1 :: rest1 =>
      if b1 < lo ∨ hi < b1 then (0xFFFD, 0)
      else if sz = 2 then ((b % 0x20) * 0x40 + b1 % 0x40, 1)
      else
        match rest1 with
        | [] => (0xFFFD, 0)
        | b2 :: rest2 =>
          if b2 < 0x80 ∨ 0xBF < b2 then (0xFFFD, 0)
          else if sz = 3 then ((b % 0x10) * 0x1000 + (b1 % 0x40) * 0x40 + b2 % 0x40, 2)
          else
            match rest2 with
            | [] => (0xFFFD, 0)
            | b3 :: _ =>
              if b3 < 0x80 ∨ 0xBF < b3 then (0xFFFD, 0)
              else ((b % 8) * 0x40000 + (b1 % 0x40) * 0x1000 + (b2 % 0x40) * 0x40 + b3 % 0x40, 3)

/-- Fuel-indexed form of the scanning loop of `FormatBytes`: the fuel
only bounds the recursion depth and is irrelevant whenever it is at
least the input length, since every iteration consumes at least one
byte. -/
def tokenizeAux : Nat → List Nat → List Tok
  | 0, _ => []
  | _, [] => []
  | fuel + 1, b :: rest =>
    if b < 0x80 then .rune b :: tokenizeAux fuel rest
    else
      match utf8DecodeTail b rest with
      | (r, extra) =>
        if extra = 0 then .invalid b :: tokenizeAux fuel rest
        else .rune r :: tokenizeAux fuel (rest.drop extra)

/-- The token stream of the `FormatBytes` scanning loop: repeatedly take
one byte; ASCII bytes are runes, otherwise decode with `utf8DecodeTail`;
a decoding failure yields an `invalid` token consuming one byte. -/
def utf8Tokenize (bs : List Nat) : List Tok := tokenizeAux bs.length bs

/-- The fuel is irrelevant once it covers the input length. -/
theorem tokenizeAux_congr : ∀ (f g : Nat) (bs : List Nat),
    bs.length ≤ f → bs.length ≤ g → tokenizeAux f bs = tokenizeAux g bs := by
  intro f
  induction f with
  | zero =>
    intro g bs hf _
    have : bs = [] := List.length_eq_zero.mp (Nat.le_antisymm hf (Nat.zero_le _))
    subst this
    cases g <;> rfl
  | succ f ih =>
    intro g bs hf hg
    cases bs with
    | nil => cases g <;> rfl
    | cons b rest =>
      cases g with
      | zero => exact absurd hg (by simp)
      | succ g =>
        simp only [tokenizeAux]
        have hrest : rest.length ≤ f := by simp at hf; omega
        have hrest2 : rest.length ≤ g := by simp at hg; omega
        have hdrop : ∀ k, (rest.drop k).length ≤ f := fun k => le_trans (by simp) hrest
        have hdrop2 : ∀ k, (rest.drop k).length ≤ g := fun k => le_trans (by simp) hrest2
        split
        · rw [ih g rest hrest hrest2]
        · split
          · rw [ih g rest hrest hrest2]
          · rw [ih g _ (hdrop _) (hdrop2 _)]

/-- Unfolding rule of `utf8Tokenize` on a nonempty input. -/
theorem utf8Tokenize_cons (b : Nat) (rest : List Nat) :
    utf8Tokenize (b :: rest) =
      (if b < 0x80 then Tok.rune b :: utf8Tokenize rest
       else
        match utf8DecodeTail b rest with
        | (r, extra) =>
          if extra = 0 then Tok.invalid b :: utf8Tokenize rest
          else Tok.rune r :: utf8Tokenize (rest.drop extra)) := by
  show tokenizeAux (rest.length + 1) (b :: rest) = _
  simp only [tokenizeAux]
  split
  · rfl
  · split
    · rfl
    · rw [tokenizeAux_congr rest.length _ (rest.drop _) (by simp) (le_refl _)]
      rfl

/-- `utf8.EncodeRune`: the byte encoding of a rune, with surrogates and
out-of-range values replaced by the encoding of U+FFFD. -/
def utf8EncodeRune (r : Nat) : List Nat :=
  if r ≤ 0x7F then [r]
  else if r ≤ 0x7FF then [0xC0 + r / 0x40, 0x80 + r % 0x40]
  else if (0xD800 ≤ r ∧ r ≤ 0xDFFF) ∨ 0x10FFFF < r then [0xEF, 0xBF, 0xBD]
  else if r ≤ 0xFFFF then [0xE0 + r / 0x1000, 0x80 + (r / 0x40) % 0x40, 0x80 + r % 0x40]
  else [0xF0 + r / 0x40000, 0x80 + (r / 0x1000) % 0x40, 0x80 + (r / 0x40) % 0x40, 0x80 + r % 0x40]

/-- A Unicode scalar value: exactly the runes `utf8DecodeTail` can
produce, and the runes `utf8.EncodeRune` encodes losslessly. -/
def Scalar (r : Nat) : Prop := r < 0xD800 ∨ (0xDFFF < r ∧ r ≤ 0x10FFFF)

instance (r : Nat) : Decidable (Scalar r) := by unfold Scalar; infer_instance

/-- Concatenation of the encodings of a list of runes. -/
def encodedAll (rs : List Nat) : List Nat := (rs.map utf8EncodeRune).flatten

/-- A byte list that is a concatenation of encodings of scalar values;
the token stream of such a list is independent of what follows it. -/
def CleanBytes (bs : List Nat) : Prop :=
  ∃ rs : List Nat, (∀ r ∈ rs, Scalar r) ∧ bs = encodedAll rs

/-- The external tables used by the escaper: the `go-runewidth` display
width of a rune, `strconv.IsGraphic`, and `unicode.IsSpace`. -/
structure Ext where
  runeWidth : Nat → Nat
  isGraphic : Nat → Bool
  isSpace : Nat → Bool

/-- The escaping options of `FormatBytes` (the `invalid`, `invalidWidth`,
`isJSON`, `isRaw`, `sep`, `quote` arguments). -/
structure FmtParams where
  invalid : Option (List Nat) := none
  invalidWidth : Nat := 0
  isJSON : Bool := false
  isRaw : Bool := false
  sep : Nat := 0
  quote : Nat := 0

/-- `Value` (fmt.go): an escaped buffer annotated with newline and
per-line tab positions, the display width of the trailing segment,
alignment and raw/quoted flags. -/
structure Value where
  Buf : List Nat := []
  Newlines : List (Nat × Nat) := []
  Tabs : List (List (Nat × Nat)) := []
  Width : Nat := 0
  Align : Nat := 0
  Raw : Bool := false
  Quoted : Bool := false
deriving DecidableEq, Repr

/-- One character of the `lowerhex` table of fmt.go, as a byte. -/
def lowerhex (n : Nat) : Nat := if n < 10 then 48 + n else 87 + n

/-- The four hex digits of `r` emitted by the `\uHHHH` escape loop. -/
def hex4 (r : Nat) : List Nat :=
  [lowerhex (r / 0x1000 % 16), lowerhex (r / 0x100 % 16),
   lowerhex (r / 0x10 % 16), lowerhex (r % 16)]

/-- The eight hex digits of `r` emitted by the `\UHHHHHHHH` escape loop. -/
def hex8 (r : Nat) : List Nat :=
  [lowerhex (r / 0x10000000 % 16), lowerhex (r / 0x1000000 % 16),
   lowerhex (r / 0x100000 % 16), lowerhex (r / 0x10000 % 16),
   lowerhex (r / 0x1000 % 16), lowerhex (r / 0x100 % 16),
   lowerhex (r / 0x10 % 16), lowerhex (r % 16)]

/-- The effect of one scanning-loop iteration of `FormatBytes` on the
accumulated value: append escaped bytes (adding `w` to the running width
and updating the quoted flag with `q`), or record a tab, or record a
newline. -/
inductive FmtAct where
  | push (bs : List Nat) (w : Nat) (q : Bool → Bool)
  | tab
  | newline

/-- Perform an `FmtAct` on the accumulated `Value` and line counter `l`:
the buffer/width/flag updates, the tab-position recording and the
newline-position recording of the Go loop body of `FormatBytes`. -/
def applyAct (st : Value × Nat) : FmtAct → Value × Nat
  | .push bs w q =>
    ({ st.1 with Buf := st.1.Buf ++ bs, Width := st.1.Width + w, Quoted := q st.1.Quoted }, st.2)
  | .tab =>
    ({ st.1 with
        Tabs := st.1.Tabs.set st.2 ((st.1.Tabs.getD st.2 []) ++ [(st.1.Buf.length, st.1.Width)])
        Buf := st.1.Buf ++ [9]
        Width := 0 }, st.2)
  | .newline =>
    ({ st.1 with
        Newlines := st.1.Newlines ++ [(st.1.Buf.length, st.1.Width)]
        Buf := st.1.Buf ++ [10]
        Width := 0
        Tabs := st.1.Tabs ++ [[]] }, st.2 + 1)

/-- The action taken by the scanning loop of `FormatBytes` for one token,
following the branch order of the Go loop body: invalid-rune handling,
JSON escapes, raw copying (the doubled quote rune written as one
two-copy append), printable pass-through, Go escapes, tab and newline
recording, and the sized `\xHH`/`\uHHHH`/`\UHHHHHHHH` escapes.  Note the
JSON-mode invalid branch appends the six-byte backslash-u-fffd escape without a
width update, exactly as the source does. -/
def tokAct (E : Ext) (P : FmtParams) : Tok → FmtAct
  | .invalid b =>
    match P.invalid with
    | some inv => .push inv P.invalidWidth (fun _ => true)
    | none =>
      if P.isJSON then .push ([92, 117] ++ hex4 0xFFFD) 0 id
      else .push [92, 120, lowerhex (b / 16 % 16), lowerhex (b % 16)] 4 (fun _ => true)
  | .rune r =>
    if P.isJSON ∧ r = 7 then .push [92, 117, 48, 48, 48, 55] 6 id
    else if P.isJSON ∧ r = 8 then .push [92, 98] 2 id
    else if P.isJSON ∧ r = 12 then .push [92, 102] 2 id
    else if P.isJSON ∧ r = 10 then .push [92, 110] 2 id
    else if P.isJSON ∧ r = 13 then .push [92, 114] 2 id
    else if P.isJSON ∧ r = 9 then .push [92, 116] 2 id
    else if P.isJSON ∧ r = 34 then .push [92, 34] 2 id
    else if P.isJSON ∧ r = 92 then .push [92, 92] 2 id
    else if P.isRaw then
      if r = P.sep then .push (utf8EncodeRune r) (E.runeWidth r) (fun _ => true)
      else if r = P.quote ∧ P.quote ≠ 0 then
        .push (utf8EncodeRune r ++ utf8EncodeRune r) (E.runeWidth r + E.runeWidth r) (fun _ => true)
      else .push (utf8EncodeRune r) (E.runeWidth r) (fun q => q || E.isSpace r)
    else if E.isGraphic r then .push (utf8EncodeRune r) (E.runeWidth r) id
    else if r = 7 then .push [92, 97] 2 id
    else if r = 8 then .push [92, 98] 2 id
    else if r = 12 then .push [92, 102] 2 id
    else if r = 13 then .push [92, 114] 2 id
    else if r = 11 then .push [92, 118] 2 id
    else if r = 9 then .tab
    else if r = 10 then .newline
    else if r < 0x20 ∧ ¬P.isJSON then
      .push [92, 120, lowerhex (r / 16 % 16), lowerhex (r % 16)] 4 id
    else if r < 0x10000 then .push ([92, 117] ++ hex4 r) 6 id
    else if r ≤ 0x10FFFF then .push ([92, 85] ++ hex8 r) 10 id
    else .push ([92, 117] ++ hex4 0xFFFD) 6 id

/-- One iteration of the scanning loop of `FormatBytes` on a token. -/
def formatStep (E : Ext) (P : FmtParams) (st : Value × Nat) (t : Tok) : Value × Nat :=
  applyAct st (tokAct E P t)

/-- `FormatBytes` (fmt.go): scan `src`, producing a `Value` whose buffer
holds the escaped bytes and whose `Tabs`/`Newlines` record the structural
break positions. -/
def FormatBytes (E : Ext) (P : FmtParams) (src : List Nat) : Value :=
  ((utf8Tokenize src).foldl (formatStep E P) ({ Tabs := [[]] }, 0)).1

/-- `tabwidth` (fmt.go): the rendered width contributed by the segments
preceding each recorded tab, every tab advancing to the next tab stop,
relative to the starting column `offset`. -/
def tabwidth (tabs : List (Nat × Nat)) (offset tab : Nat) : Nat :=
  (tabs.foldl (fun width t => (width + t.2) + (tab - (width + t.2) % tab)) offset) - offset

/-- `Value.LineWidth` (fmt.go): the rendered width of physical line `l`. -/
def Value.LineWidth (v : Value) (l offset tab : Nat) : Nat :=
  (if l < v.Newlines.length then (v.Newlines.getD l (0, 0)).2 else 0) +
    (if v.Tabs.getD l [] ≠ [] then tabwidth (v.Tabs.getD l []) offset tab else 0) +
    (if l = v.Newlines.length then v.Width else 0)

/-- `Value.MaxWidth` (fmt.go): the maximum width of the lines in `Buf`. -/
def Value.MaxWidth (v : Value) (offset tab : Nat) : Nat :=
  (List.range v.Tabs.length).foldl (fun width l => max width (v.LineWidth l offset tab)) v.Width

/-- The tab-list and newline-list lengths stay linked to the line counter
at every step of the scanning loop. -/
theorem formatStep_shape (E : Ext) (P : FmtParams) (st : Value × Nat) (t : Tok)
    (h : st.1.Tabs.length = st.2 + 1 ∧ st.1.Newlines.length = st.2) :
    (formatStep E P st t).1.Tabs.length = (formatStep E P st t).2 + 1 ∧
      (formatStep E P st t).1.Newlines.length = (formatStep E P st t).2 := by
  obtain ⟨h1, h2⟩ := h
  unfold formatStep
  cases tokAct E P t <;> simp [applyAct, List.length_set] <;> omega

/-- Folding the scanning loop preserves the tab/newline shape link. -/
theorem formatFold_shape (E : Ext) (P : FmtParams) (toks : List Tok) (st : Value × Nat)
    (h : st.1.Tabs.length = st.2 + 1 ∧ st.1.Newlines.length = st.2) :
    (toks.foldl (formatStep E P) st).1.Tabs.length = (toks.foldl (formatStep E P) st).2 + 1 ∧
      (toks.foldl (formatStep E P) st).1.Newlines.length = (toks.foldl (formatStep E P) st).2 := by
  induction toks generalizing st with
  | nil => exact h
  | cons t ts ih => exact ih _ (formatStep_shape E P st t h)

/-- C2: for every input byte sequence and every combination of escaping
options, the `Value` returned by `FormatBytes` has exactly one per-line
tab-position list per physical line: `len(Tabs) = len(Newlines) + 1`. -/
theorem FormatBytes_tabs_newlines (E : Ext) (P : FmtParams) (src : List Nat) :
    (FormatBytes E P src).Tabs.length = (FormatBytes E P src).Newlines.length + 1 := by
  have h := formatFold_shape E P (utf8Tokenize src) ({ Tabs := [[]] }, 0) (by constructor <;> rfl)
  unfold FormatBytes
  omega

/-- A buffer slice `buf[a:b]` (as Go slicing of the escaped buffer). -/
def sliceBuf (buf : List Nat) (a b : Nat) : List Nat := (buf.take b).drop a

/-- The byte position where physical line `l` of a `Value` starts: after
the `l`-th recorded newline (position 0 for the first line). -/
def lineStart (v : Value) (l : Nat) : Nat :=
  if l = 0 then 0 else (v.Newlines.getD (l - 1) (0, 0)).1 + 1

/-- The byte position where physical line `l` of a `Value` stops: the
`l`-th recorded newline position, or the end of the buffer for the last
line. -/
def lineStop (v : Value) (l : Nat) : Nat :=
  if l < v.Newlines.length then (v.Newlines.getD l (0, 0)).1 else v.Buf.length

/-- The sub-segments of one physical line of the buffer, split at the
recorded tab byte positions (each tab byte is a delimiter). -/
def segsOf (buf : List Nat) : Nat → Nat → List (Nat × Nat) → List (List Nat)
  | a, b, [] => [sliceBuf buf a b]
  | a, b, (p, _) :: ts => sliceBuf buf a p :: segsOf buf (p + 1) b ts

/-- The rendered terminal width of a byte sequence: the sum of the
display widths of its decoded runes (an invalid byte rendering as the
replacement character), exactly as a `StringWidth` re-measurement of the
escaped buffer would compute it. -/
def measureW (E : Ext) (bs : List Nat) : Nat :=
  ((utf8Tokenize bs).map (fun t => E.runeWidth t.runeOf)).sum

/-- The next tab stop after (strictly beyond) column `col`. -/
def nextStop (col tab : Nat) : Nat := col + (tab - col % tab)

/-- The final terminal column after rendering the segments of one line
starting at column `col`: every segment except the last is followed by a
tab that advances to the next tab stop. -/
def renderSegs (E : Ext) (tab : Nat) : Nat → List (List Nat) → Nat
  | col, [] => col
  | col, [s] => col + measureW E s
  | col, s :: s1 :: ss => renderSegs E tab (nextStop (col + measureW E s) tab) (s1 :: ss)

/-- The true rendered terminal width of physical line `l` of a `Value`:
slice the escaped buffer at the recorded newline positions, then expand
the line's recorded tabs at tab stops relative to the starting column
`offset`. -/
def specLineWidth (E : Ext) (v : Value) (l offset tab : Nat) : Nat :=
  renderSegs E tab offset (segsOf v.Buf (lineStart v l) (lineStop v l) (v.Tabs.getD l [])) -
    offset

/-- The width the specification demands of `MaxWidth`: the maximum of
the true rendered widths over all physical lines of the value (the
`len(Newlines) + 1` segments of `Buf` delimited by the recorded
newlines). -/
def specMaxWidth (E : Ext) (v : Value) (offset tab : Nat) : Nat :=
  (List.range (v.Newlines.length + 1)).foldl
    (fun w l => max w (specLineWidth E v l offset tab)) 0

/-- A concrete instantiation of the external tables, agreeing with
`go-runewidth`, `strconv.IsGraphic` and `unicode.IsSpace` on the ASCII
range: printable ASCII is one cell wide and graphic, ASCII control
characters are zero cells wide and not graphic. -/
def extASCII : Ext where
  runeWidth r := if 0x20 ≤ r ∧ r ≤ 0x7E then 1 else 0
  isGraphic r := decide (0x20 ≤ r ∧ r ≤ 0x7E)
  isSpace r := decide (r = 32 ∨ (9 ≤ r ∧ r ≤ 13))

/-- C1, counterexample: in JSON mode with no invalid placeholder, an
invalid input byte is escaped as the six-character `�` sequence but
the recorded width is not increased, so `MaxWidth` (0) is smaller than
the true rendered width of the single physical line (6 terminal cells of
printable ASCII).  The input is `FormatBytes([]byte{0xff}, nil, 0, true,
false, 0, 0)` with offset 0 and tab width 8. -/
theorem FormatBytes_MaxWidth_cex :
    (FormatBytes extASCII { isJSON := true } [0xFF]).MaxWidth 0 8 = 0 ∧
      specMaxWidth extASCII (FormatBytes extASCII { isJSON := true } [0xFF]) 0 8 = 6 ∧
      (FormatBytes extASCII { isJSON := true } [0xFF]).Buf = [92, 117, 102, 102, 102, 100] := by
  refine ⟨by decide, by decide, by decide⟩

/-- Tokenizing a pure-ASCII byte list yields its bytes as runes. -/
theorem utf8Tokenize_ascii (bs : List Nat) (h : ∀ b ∈ bs, b < 0x80) :
    utf8Tokenize bs = bs.map Tok.rune := by
  induction bs with
  | nil => rfl
  | cons b rest ih =>
    rw [utf8Tokenize_cons, if_pos (h b (by simp)), ih (fun x hx => h x (by simp [hx]))]
    rfl

/-- Rendered width of a printable-ASCII byte list: one cell per byte,
for any width table that is 1 on printable ASCII. -/
theorem measureW_printable (E : Ext) (hE : ∀ c, 0x20 ≤ c → c ≤ 0x7E → E.runeWidth c = 1)
    (bs : List Nat) (h : ∀ b ∈ bs, 0x20 ≤ b ∧ b ≤ 0x7E) :
    measureW E bs = bs.length := by
  unfold measureW
  rw [utf8Tokenize_ascii bs (fun b hb => by have := (h b hb).2; omega)]
  induction bs with
  | nil => rfl
  | cons b rest ih =>
    simp only [List.map_cons, List.map_map, List.sum_cons] at *
    rw [ih (fun x hx => h x (by simp [hx]))]
    have := h b (by simp)
    rw [Tok.runeOf, hE b this.1 this.2]
    simp [Nat.add_comm]

/-- Every ASCII byte list is a concatenation of rune encodings. -/
theorem cleanBytes_ascii (bs : List Nat) (h : ∀ b ∈ bs, b < 0x80) : CleanBytes bs := by
  refine ⟨bs, fun r hr => Or.inl (by have := h r hr; omega), ?_⟩
  induction bs with
  | nil => rfl
  | cons b rest ih =>
    have hb : b < 0x80 := h b (by simp)
    rw [encodedAll, List.map_cons, List.flatten_cons,
      show utf8EncodeRune b = [b] by unfold utf8EncodeRune; rw [if_pos (by omega)]]
    rw [← encodedAll, ← ih (fun x hx => h x (by simp [hx]))]
    rfl

/-- The `lowerhex` digits are printable ASCII. -/
theorem lowerhex_printable (n : Nat) (h : n < 16) :
    0x20 ≤ lowerhex n ∧ lowerhex n ≤ 0x7E := by
  unfold lowerhex
  split <;> omega

/-- Decoding the encoding of a scalar value in front of any suffix
yields the rune followed by the suffix's tokens. -/
theorem utf8Tokenize_encodeRune (r : Nat) (hr : Scalar r) (y : List Nat) :
    utf8Tokenize (utf8EncodeRune r ++ y) = Tok.rune r :: utf8Tokenize y := by
  unfold Scalar at hr
  by_cases h1 : r ≤ 0x7F
  · rw [show utf8EncodeRune r = [r] by unfold utf8EncodeRune; rw [if_pos h1]]
    rw [List.cons_append, List.nil_append, utf8Tokenize_cons, if_pos (by omega)]
  by_cases h2 : r ≤ 0x7FF
  · rw [show utf8EncodeRune r = [0xC0 + r / 0x40, 0x80 + r % 0x40] by
      unfold utf8EncodeRune; rw [if_neg h1, if_pos h2]]
    rw [List.cons_append, List.cons_append, List.nil_append, utf8Tokenize_cons,
      if_neg (by omega)]
    have hfirst : utf8First (0xC0 + r / 0x40) = some (2, 0x80, 0xBF) := by
      unfold utf8First
      rw [if_neg (by omega), if_pos (by omega)]
    have hdec : utf8DecodeTail (0xC0 + r / 0x40) ((0x80 + r % 0x40) :: y) = (r, 1) := by
      unfold utf8DecodeTail
      rw [hfirst]
      simp only [if_neg (show ¬(0x80 + r % 0x40 < 0x80 ∨ 0xBF < 0x80 + r % 0x40) by omega),
        if_pos rfl]
      have : (0xC0 + r / 0x40) % 0x20 * 0x40 + (0x80 + r % 0x40) % 0x40 = r := by omega
      rw [this]
      simp
    rw [hdec]
    simp
  by_cases h3 : r ≤ 0xFFFF
  · have hs : ¬((0xD800 ≤ r ∧ r ≤ 0xDFFF) ∨ 0x10FFFF < r) := by omega
    rw [show utf8EncodeRune r =
        [0xE0 + r / 0x1000, 0x80 + (r / 0x40) % 0x40, 0x80 + r % 0x40] by
      unfold utf8EncodeRune; rw [if_neg h1, if_neg h2, if_neg hs, if_pos h3]]
    rw [List.cons_append, List.cons_append, List.cons_append, List.nil_append,
      utf8Tokenize_cons, if_neg (by omega)]
    have hfirst : ∃ lo hi, utf8First (0xE0 + r / 0x1000) = some (3, lo, hi) ∧
        lo ≤ 0x80 + (r / 0x40) % 0x40 ∧ 0x80 + (r / 0x40) % 0x40 ≤ hi := by
      by_cases he0 : r / 0x1000 = 0
      · refine ⟨0xA0, 0xBF, ?_, by omega, by omega⟩
        rw [he0]
        decide
      by_cases hed : r / 0x1000 = 13
      · refine ⟨0x80, 0x9F, ?_, by omega, by omega⟩
        rw [hed]
        decide
      · refine ⟨0x80, 0xBF, ?_, by omega, by omega⟩
        have c1 : ¬(0xE0 + r / 0x1000 < 0xC2) := by omega
        have c2 : ¬(0xE0 + r / 0x1000 ≤ 0xDF) := by omega
        have c3 : ¬(0xE0 + r / 0x1000 = 0xE0) := by omega
        have c4 : ¬(0xE0 + r / 0x1000 = 0xED) := by omega
        have c5 : 0xE0 + r / 0x1000 ≤ 0xEF := by omega
        unfold utf8First
        rw [if_neg c1, if_neg c2, if_neg c3, if_neg c4, if_pos c5]
    obtain ⟨lo, hi, hfirst, hlo, hhi⟩ := hfirst
    have hdec : utf8DecodeTail (0xE0 + r / 0x1000)
        ((0x80 + (r / 0x40) % 0x40) :: (0x80 + r % 0x40) :: y) = (r, 2) := by
      unfold utf8DecodeTail
      rw [hfirst]
      simp only [if_neg (show ¬(0x80 + (r / 0x40) % 0x40 < lo ∨ hi < 0x80 + (r / 0x40) % 0x40)
          by omega),
        if_neg (show ¬(3 = 2) by omega),
        if_neg (show ¬(0x80 + r % 0x40 < 0x80 ∨ 0xBF < 0x80 + r % 0x40) by omega),
        if_pos rfl]
      have : (0xE0 + r / 0x1000) % 0x10 * 0x1000 + (0x80 + (r / 0x40) % 0x40) % 0x40 * 0x40 +
          (0x80 + r % 0x40) % 0x40 = r := by omega
      rw [this]
      simp
    rw [hdec]
    simp
  · have h4 : r ≤ 0x10FFFF := by omega
    have hs : ¬((0xD800 ≤ r ∧ r ≤ 0xDFFF) ∨ 0x10FFFF < r) := by omega
    rw [show utf8EncodeRune r =
        [0xF0 + r / 0x40000, 0x80 + (r / 0x1000) % 0x40, 0x80 + (r / 0x40) % 0x40,
          0x80 + r % 0x40] by
      unfold utf8EncodeRune; rw [if_neg h1, if_neg h2, if_neg hs, if_neg h3]]
    rw [List.cons_append, List.cons_append, List.cons_append, List.cons_append,
      List.nil_append, utf8Tokenize_cons, if_neg (by omega)]
    have hfirst : ∃ lo hi, utf8First (0xF0 + r / 0x40000) = some (4, lo, hi) ∧
        lo ≤ 0x80 + (r / 0x1000) % 0x40 ∧ 0x80 + (r / 0x1000) % 0x40 ≤ hi := by
      by_cases hf0 : r / 0x40000 = 0
      · refine ⟨0x90, 0xBF, ?_, by omega, by omega⟩
        rw [hf0]
        decide
      by_cases hf4 : r / 0x40000 = 4
      · refine ⟨0x80, 0x8F, ?_, by omega, by omega⟩
        rw [hf4]
        decide
      · refine ⟨0x80, 0xBF, ?_, by omega, by omega⟩
        have d1 : ¬(0xF0 + r / 0x40000 < 0xC2) := by omega
        have d2 : ¬(0xF0 + r / 0x40000 ≤ 0xDF) := by omega
        have d3 : ¬(0xF0 + r / 0x40000 = 0xE0) := by omega
        have d4 : ¬(0xF0 + r / 0x40000 = 0xED) := by omega
        have d5 : ¬(0xF0 + r / 0x40000 ≤ 0xEF) := by omega
        have d6 : ¬(0xF0 + r / 0x40000 = 0xF0) := by omega
        have d7 : 0xF0 + r / 0x40000 ≤ 0xF3 := by omega
        unfold utf8First
        rw [if_neg d1, if_neg d2, if_neg d3, if_neg d4, if_neg d5, if_neg d6, if_pos d7]
    obtain ⟨lo, hi, hfirst, hlo, hhi⟩ := hfirst
    have hdec : utf8DecodeTail (0xF0 + r / 0x40000)
        ((0x80 + (r / 0x1000) % 0x40) :: (0x80 + (r / 0x40) % 0x40) ::
          (0x80 + r % 0x40) :: y) = (r, 3) := by
      unfold utf8DecodeTail
      rw [hfirst]
      simp only [if_neg (show ¬(0x80 + (r / 0x1000) % 0x40 < lo ∨ hi < 0x80 + (r / 0x1000) % 0x40)
          by omega),
        if_neg (show ¬(4 = 2) by omega),
        if_neg (show ¬(0x80 + (r / 0x40) % 0x40 < 0x80 ∨ 0xBF < 0x80 + (r / 0x40) % 0x40)
          by omega),
        if_neg (show ¬(4 = 3) by omega),
        if_neg (show ¬(0x80 + r % 0x40 < 0x80 ∨ 0xBF < 0x80 + r % 0x40) by omega),
        if_pos rfl]
      have : (0xF0 + r / 0x40000) % 8 * 0x40000 + (0x80 + (r / 0x1000) % 0x40) % 0x40 * 0x1000 +
          (0x80 + (r / 0x40) % 0x40) % 0x40 * 0x40 + (0x80 + r % 0x40) % 0x40 = r := by omega
      rw [this]
    rw [hdec]
    simp

/-- Tokens of an encoded scalar list in front of any suffix. -/
theorem utf8Tokenize_encodedAll (rs : List Nat) (h : ∀ r ∈ rs, Scalar r) (y : List Nat) :
    utf8Tokenize (encodedAll rs ++ y) = rs.map Tok.rune ++ utf8Tokenize y := by
  induction rs with
  | nil => simp [encodedAll]
  | cons r rest ih =>
    rw [encodedAll, List.map_cons, List.flatten_cons, List.append_assoc]
    rw [utf8Tokenize_encodeRune r (h r (by simp)) _]
    rw [show (List.map utf8EncodeRune rest).flatten = encodedAll rest from rfl]
    rw [ih (fun x hx => h x (by simp [hx]))]
    rfl

/-- The empty byte list is clean. -/
theorem cleanBytes_nil : CleanBytes [] := ⟨[], by simp, rfl⟩

/-- Concatenating clean byte lists is clean. -/
theorem CleanBytes.append {x y : List Nat} (hx : CleanBytes x) (hy : CleanBytes y) :
    CleanBytes (x ++ y) := by
  obtain ⟨rs, hrs, rfl⟩ := hx
  obtain ⟨qs, hqs, rfl⟩ := hy
  refine ⟨rs ++ qs, ?_, ?_⟩
  · intro r hr
    rcases List.mem_append.mp hr with h | h
    · exact hrs r h
    · exact hqs r h
  · simp [encodedAll]

/-- The encoding of a scalar value is clean. -/
theorem cleanBytes_encodeRune (r : Nat) (hr : Scalar r) : CleanBytes (utf8EncodeRune r) :=
  ⟨[r], by simpa using hr, by simp [encodedAll]⟩

/-- Rendered width adds over a clean prefix. -/
theorem measureW_append_clean (E : Ext) (x y : List Nat) (hx : CleanBytes x) :
    measureW E (x ++ y) = measureW E x + measureW E y := by
  obtain ⟨rs, hrs, rfl⟩ := hx
  unfold measureW
  rw [utf8Tokenize_encodedAll rs hrs y,
    show encodedAll rs = encodedAll rs ++ [] by simp,
    utf8Tokenize_encodedAll rs hrs []]
  simp [utf8Tokenize, tokenizeAux]

/-- Rendered width of an encoded scalar value. -/
theorem measureW_encodeRune (E : Ext) (r : Nat) (hr : Scalar r) :
    measureW E (utf8EncodeRune r) = E.runeWidth r := by
  unfold measureW
  rw [show utf8EncodeRune r = utf8EncodeRune r ++ [] by simp, utf8Tokenize_encodeRune r hr []]
  simp [Tok.runeOf, utf8Tokenize, tokenizeAux]

/-- Case analysis of the condensed `first` table. -/
theorem utf8First_cases (b sz lo hi : Nat) (h : utf8First b = some (sz, lo, hi)) :
    (sz = 2 ∧ lo = 0x80 ∧ hi = 0xBF ∧ 0xC2 ≤ b ∧ b ≤ 0xDF) ∨
    (sz = 3 ∧ lo = 0xA0 ∧ hi = 0xBF ∧ b = 0xE0) ∨
    (sz = 3 ∧ lo = 0x80 ∧ hi = 0x9F ∧ b = 0xED) ∨
    (sz = 3 ∧ lo = 0x80 ∧ hi = 0xBF ∧ 0xE1 ≤ b ∧ b ≤ 0xEF ∧ b ≠ 0xED) ∨
    (sz = 4 ∧ lo = 0x90 ∧ hi = 0xBF ∧ b = 0xF0) ∨
    (sz = 4 ∧ lo = 0x80 ∧ hi = 0xBF ∧ 0xF1 ≤ b ∧ b ≤ 0xF3) ∨
    (sz = 4 ∧ lo = 0x80 ∧ hi = 0x8F ∧ b = 0xF4) := by
  unfold utf8First at h
  split_ifs at h <;> simp_all <;> omega

/-- A successful multi-byte decode yields a Unicode scalar value. -/
theorem utf8DecodeTail_scalar (b : Nat) (rest : List Nat)
    (h : (utf8DecodeTail b rest).2 ≠ 0) : Scalar (utf8DecodeTail b rest).1 := by
  unfold Scalar
  unfold utf8DecodeTail at h ⊢
  cases hf : utf8First b with
  | none => rw [hf] at h; simp at h
  | some t =>
    obtain ⟨sz, lo, hi⟩ := t
    rw [hf] at h
    have hb := utf8First_cases b sz lo hi hf
    cases rest with
    | nil => simp at h
    | cons b1 r1 =>
      dsimp only at h ⊢
      by_cases hc1 : b1 < lo ∨ hi < b1
      · rw [if_pos hc1] at h; simp at h
      rw [if_neg hc1] at h ⊢
      by_cases hsz2 : sz = 2
      · rw [if_pos hsz2] at h ⊢
        dsimp only
        omega
      rw [if_neg hsz2] at h ⊢
      cases r1 with
      | nil => simp at h
      | cons b2 r2 =>
        dsimp only at h ⊢
        by_cases hc2 : b2 < 0x80 ∨ 0xBF < b2
        · rw [if_pos hc2] at h; simp at h
        rw [if_neg hc2] at h ⊢
        by_cases hsz3 : sz = 3
        · rw [if_pos hsz3] at h ⊢
          dsimp only
          omega
        rw [if_neg hsz3] at h ⊢
        cases r2 with
        | nil => simp at h
        | cons b3 r3 =>
          dsimp only at h ⊢
          by_cases hc3 : b3 < 0x80 ∨ 0xBF < b3
          · rw [if_pos hc3] at h; simp at h
          · rw [if_neg hc3] at h ⊢
            dsimp only
            omega

/-- Every token of any token stream is an invalid byte or a scalar rune. -/
theorem tokenizeAux_valid : ∀ (fuel : Nat) (bs : List Nat), ∀ t ∈ tokenizeAux fuel bs,
    t.isInv = true ∨ Scalar t.runeOf := by
  intro fuel
  induction fuel with
  | zero => intro bs t ht; simp [tokenizeAux] at ht
  | succ f ih =>
    intro bs t ht
    cases bs with
    | nil => simp [tokenizeAux] at ht
    | cons b rest =>
      rw [tokenizeAux] at ht
      by_cases hb : b < 0x80
      · rw [if_pos hb] at ht
        rcases List.mem_cons.mp ht with rfl | ht
        · exact Or.inr (show Scalar b by unfold Scalar; omega)
        · exact ih rest t ht
      · rw [if_neg hb] at ht
        by_cases hex : (utf8DecodeTail b rest).2 = 0
        · simp only [if_pos hex] at ht
          rcases List.mem_cons.mp ht with rfl | ht
          · exact Or.inl rfl
          · exact ih rest t ht
        · simp only [if_neg hex] at ht
          rcases List.mem_cons.mp ht with rfl | ht
          · exact Or.inr (by
              have := utf8DecodeTail_scalar b rest hex
              simpa [Tok.runeOf] using this)
          · exact ih _ t ht

/-- Every rune token of a token stream is a Unicode scalar value. -/
theorem utf8Tokenize_valid (bs : List Nat) : ∀ t ∈ utf8Tokenize bs,
    t.isInv = true ∨ Scalar t.runeOf :=
  tokenizeAux_valid bs.length bs

/-- The width the Go code has recorded for the trailing segment of line
`i`: the stored newline width for a closed line, the running `Width` for
the last line. -/
def lastWidth (v : Value) (i : Nat) : Nat :=
  if i < v.Newlines.length then (v.Newlines.getD i (0, 0)).2 else v.Width

/-- Byte position where the segment after the last of `ts` starts (`a`
for a line without tabs). -/
def segsLastStart (a : Nat) (ts : List (Nat × Nat)) : Nat :=
  match ts.getLast? with
  | none => a
  | some t => t.1 + 1

/-- Starting byte position of the still-open trailing segment. -/
def trailStart (v : Value) (l : Nat) : Nat :=
  segsLastStart (lineStart v l) (v.Tabs.getD l [])

/-- `getD` on an append, inside the left list. -/
theorem getD_append_left {α : Type} (l l' : List α) (i : Nat) (d : α) (h : i < l.length) :
    (l ++ l').getD i d = l.getD i d := by
  rw [List.getD_eq_getElem?_getD, List.getD_eq_getElem?_getD, List.getElem?_append, if_pos h]

/-- `getD` on an appended singleton at the old length. -/
theorem getD_append_len {α : Type} (l : List α) (x d : α) :
    (l ++ [x]).getD l.length d = x := by
  rw [List.getD_eq_getElem?_getD, List.getElem?_concat_length]
  rfl

/-- `getD` after `set` at the written index. -/
theorem getD_set_self {α : Type} (l : List α) (i : Nat) (x d : α) (h : i < l.length) :
    (l.set i x).getD i d = x := by
  rw [List.getD_eq_getElem?_getD, List.getElem?_set_self]
  · rfl
  · exact h

/-- `getD` after `set` at a different index. -/
theorem getD_set_ne {α : Type} (l : List α) (i j : Nat) (x d : α) (h : i ≠ j) :
    (l.set i x).getD j d = l.getD j d := by
  rw [List.getD_eq_getElem?_getD, List.getD_eq_getElem?_getD, List.getElem?_set_ne h]

/-- A `getD` at a valid index is a member. -/
theorem getD_mem {α : Type} (l : List α) (i : Nat) (d : α) (h : i < l.length) :
    l.getD i d ∈ l := by
  rw [List.getD_eq_getElem l d h]
  exact List.getElem_mem h

/-- Slices whose stop is inside the original list ignore appended bytes. -/
theorem sliceBuf_stable (buf c : List Nat) (a b : Nat) (hb : b ≤ buf.length) :
    sliceBuf (buf ++ c) a b = sliceBuf buf a b := by
  unfold sliceBuf
  rw [List.take_append_of_le_length hb]

/-- The slice running to the end of the buffer absorbs appended bytes. -/
theorem sliceBuf_open_append (buf c : List Nat) (a : Nat) (ha : a ≤ buf.length) :
    sliceBuf (buf ++ c) a (buf ++ c).length = sliceBuf buf a buf.length ++ c := by
  unfold sliceBuf
  rw [List.take_length, List.take_length, List.drop_append_of_le_length ha]

/-- The empty slice at the end of the buffer. -/
theorem sliceBuf_end (buf : List Nat) : sliceBuf buf buf.length buf.length = [] := by
  unfold sliceBuf
  rw [List.take_length, List.drop_length]

/-- Splitting at one more tab appends one closed segment. -/
theorem segsOf_snoc (buf : List Nat) (p w : Nat) (ts : List (Nat × Nat)) : ∀ (a b : Nat),
    segsOf buf a b (ts ++ [(p, w)]) = segsOf buf a p ts ++ [sliceBuf buf (p + 1) b] := by
  induction ts with
  | nil => intro a b; rfl
  | cons t ts ih =>
    intro a b
    obtain ⟨q, u⟩ := t
    rw [List.cons_append]
    unfold segsOf
    rw [ih]
    rfl

/-- Segments whose boundaries are inside the original buffer ignore
appended bytes. -/
theorem segsOf_stable (buf c : List Nat) (ts : List (Nat × Nat)) : ∀ (a b : Nat),
    b ≤ buf.length → (∀ p ∈ ts, p.1 ≤ buf.length) →
    segsOf (buf ++ c) a b ts = segsOf buf a b ts := by
  induction ts with
  | nil =>
    intro a b hb _
    unfold segsOf
    rw [sliceBuf_stable buf c a b hb]
  | cons t ts ih =>
    intro a b hb hts
    obtain ⟨p, w⟩ := t
    unfold segsOf
    rw [sliceBuf_stable buf c a p (hts (p, w) (by simp)),
      ih (p + 1) b hb (fun x hx => hts x (by simp [hx]))]

/-- Peeling one tab moves the last-segment start. -/
theorem segsLastStart_cons (a p w : Nat) (ts : List (Nat × Nat)) :
    segsLastStart a ((p, w) :: ts) = segsLastStart (p + 1) ts := by
  cases ts with
  | nil => rfl
  | cons t ts =>
    unfold segsLastStart
    rw [List.getLast?_cons_cons]
    cases hg : (t :: ts).getLast? with
    | none => simp at hg
    | some u => rfl

/-- Appending a tab entry sets the last-segment start after it. -/
theorem segsLastStart_snoc (a p w : Nat) (ts : List (Nat × Nat)) :
    segsLastStart a (ts ++ [(p, w)]) = p + 1 := by
  simp [segsLastStart, List.getLast?_concat]

/-- When bytes of rendered width `m` are appended to the buffer, the
closed segments of the current line keep their measures and the trailing
(clean) segment gains exactly `m`. -/
theorem segsOf_append_measure (E : Ext) (buf c : List Nat) (W : Nat)
    (ts : List (Nat × Nat)) : ∀ (a : Nat), a ≤ buf.length → (∀ p ∈ ts, p.1 < buf.length) →
    CleanBytes (sliceBuf buf (segsLastStart a ts) buf.length) →
    (segsOf buf a buf.length ts).map (measureW E) = ts.map Prod.snd ++ [W] →
    (segsOf (buf ++ c) a (buf ++ c).length ts).map (measureW E) =
      ts.map Prod.snd ++ [W + measureW E c] := by
  induction ts with
  | nil =>
    intro a ha _ hclean hmap
    unfold segsOf at hmap ⊢
    simp only [List.map_cons, List.map_nil, List.map_nil, List.nil_append] at hmap ⊢
    have hW : measureW E (sliceBuf buf a buf.length) = W := by
      simpa using hmap
    rw [sliceBuf_open_append buf c a ha,
      measureW_append_clean E _ c (by simpa [segsLastStart] using hclean), hW]
  | cons t ts ih =>
    intro a ha hts hclean hmap
    obtain ⟨p, w⟩ := t
    have hp : p < buf.length := hts (p, w) (by simp)
    unfold segsOf at hmap ⊢
    simp only [List.map_cons, List.cons_append, List.cons.injEq] at hmap ⊢
    refine ⟨by rw [sliceBuf_stable buf c a p hp.le]; exact hmap.1, ?_⟩
    rw [segsLastStart_cons a p w ts] at hclean
    exact ih (p + 1) hp (fun x hx => hts x (by simp [hx])) hclean hmap.2

/-- The invariant linking the recorded `Newlines`/`Tabs`/`Width` data of
the accumulated `Value` to the true rendered measures of the buffer
slices they delimit. -/
structure FmtInv (E : Ext) (v : Value) (l : Nat) : Prop where
  hnl : v.Newlines.length = l
  htab : v.Tabs.length = l + 1
  hsegs : ∀ i, i ≤ l →
    (segsOf v.Buf (lineStart v i) (lineStop v i) (v.Tabs.getD i [])).map (measureW E) =
      (v.Tabs.getD i []).map Prod.snd ++ [lastWidth v i]
  hclean : CleanBytes (sliceBuf v.Buf (trailStart v l) v.Buf.length)
  hnlpos : ∀ p ∈ v.Newlines, p.1 < v.Buf.length
  htabpos : ∀ ts ∈ v.Tabs, ∀ p ∈ ts, p.1 < v.Buf.length

/-- Line starts stay inside the buffer. -/
theorem FmtInv.lineStart_le {E : Ext} {v : Value} {l : Nat} (inv : FmtInv E v l)
    (i : Nat) (hi : i ≤ l) : lineStart v i ≤ v.Buf.length := by
  unfold lineStart
  split
  · exact Nat.zero_le _
  · rename_i hi0
    have hn := inv.hnl
    have hlt : i - 1 < v.Newlines.length := by omega
    exact inv.hnlpos _ (getD_mem v.Newlines (i - 1) (0, 0) hlt)

/-- The trailing-segment start stays inside the buffer. -/
theorem FmtInv.trailStart_le {E : Ext} {v : Value} {l : Nat} (inv : FmtInv E v l) :
    trailStart v l ≤ v.Buf.length := by
  unfold trailStart segsLastStart
  cases hg : (v.Tabs.getD l []).getLast? with
  | none => exact inv.lineStart_le l (le_refl l)
  | some t =>
    have hmem : t ∈ v.Tabs.getD l [] := by
      obtain ⟨hne, heq⟩ := List.mem_getLast?_eq_getLast (x := t) (by rw [Option.mem_def, hg])
      rw [heq]
      exact List.getLast_mem hne
    have htl : v.Tabs.getD l [] ∈ v.Tabs := getD_mem v.Tabs l [] (by have := inv.htab; omega)
    exact inv.htabpos _ htl t hmem

/-- Line stops stay inside the buffer. -/
theorem FmtInv.lineStop_le {E : Ext} {v : Value} {l : Nat} (inv : FmtInv E v l)
    (i : Nat) : lineStop v i ≤ v.Buf.length := by
  unfold lineStop
  split
  · rename_i h
    exact le_of_lt (inv.hnlpos _ (getD_mem v.Newlines i (0, 0) h))
  · exact le_refl _

/-- Recorded tab positions of any line lie inside the buffer. -/
theorem FmtInv.tabs_lt {E : Ext} {v : Value} {l : Nat} (inv : FmtInv E v l)
    (i : Nat) : ∀ p ∈ v.Tabs.getD i [], p.1 < v.Buf.length := by
  intro p hp
  by_cases hlen : i < v.Tabs.length
  · exact inv.htabpos _ (getD_mem v.Tabs i [] hlen) p hp
  · rw [List.getD_eq_default] at hp
    · simp at hp
    · omega

/-- Appending a chunk of bytes of measured width `measureW E bs`
preserves the formatting invariant (the push action of the loop). -/
theorem fmtInv_push (E : Ext) (v v' : Value) (l : Nat) (bs : List Nat)
    (hBuf : v'.Buf = v.Buf ++ bs) (hNl : v'.Newlines = v.Newlines)
    (hTabs : v'.Tabs = v.Tabs) (hW : v'.Width = v.Width + measureW E bs)
    (hc : CleanBytes bs) (inv : FmtInv E v l) : FmtInv E v' l := by
  have hls : ∀ i, lineStart v' i = lineStart v i := by
    intro i
    unfold lineStart
    rw [hNl]
  have htr : trailStart v' l = trailStart v l := by
    unfold trailStart
    rw [hls, hTabs]
  constructor
  · rw [hNl]; exact inv.hnl
  · rw [hTabs]; exact inv.htab
  · intro i hi
    rw [hls, hTabs, hBuf]
    by_cases hil : i < v.Newlines.length
    · have hstop : lineStop v' i = lineStop v i := by
        unfold lineStop
        rw [hNl]
        rw [if_pos hil, if_pos hil]
      have hlw : lastWidth v' i = lastWidth v i := by
        unfold lastWidth
        rw [hNl]
        rw [if_pos hil, if_pos hil]
      rw [hstop, hlw,
        segsOf_stable v.Buf bs _ _ _ (inv.lineStop_le i)
          (fun p hp => le_of_lt (inv.tabs_lt i p hp))]
      exact inv.hsegs i hi
    · have hieq : i = l := by have := inv.hnl; omega
      subst hieq
      have hstop : lineStop v' i = (v.Buf ++ bs).length := by
        unfold lineStop
        rw [hNl, if_neg hil, hBuf]
      have hlw : lastWidth v' i = v.Width + measureW E bs := by
        unfold lastWidth
        rw [hNl, if_neg hil, hW]
      have hstopv : lineStop v i = v.Buf.length := by
        unfold lineStop
        rw [if_neg hil]
      have hmap := inv.hsegs i (le_refl i)
      rw [hstopv] at hmap
      have hlwv : lastWidth v i = v.Width := by
        unfold lastWidth
        rw [if_neg hil]
      rw [hlwv] at hmap
      rw [hstop, hlw]
      exact segsOf_append_measure E v.Buf bs v.Width (v.Tabs.getD i [])
        (lineStart v i) (inv.lineStart_le i hi) (inv.tabs_lt i) inv.hclean hmap
  · rw [htr, hBuf, sliceBuf_open_append v.Buf bs _ inv.trailStart_le]
    exact CleanBytes.append inv.hclean hc
  · intro p hp
    rw [hNl] at hp
    rw [hBuf, List.length_append]
    have := inv.hnlpos p hp
    omega
  · intro ts hts p hp
    rw [hTabs] at hts
    rw [hBuf, List.length_append]
    have := inv.htabpos ts hts p hp
    omega

/-- Rendered width of the empty byte list. -/
theorem measureW_nil (E : Ext) : measureW E [] = 0 := rfl

/-- Recording a tab preserves the formatting invariant. -/
theorem fmtInv_tab (E : Ext) (v v' : Value) (l : Nat)
    (hBuf : v'.Buf = v.Buf ++ [9]) (hNl : v'.Newlines = v.Newlines)
    (hTabs : v'.Tabs = v.Tabs.set l (v.Tabs.getD l [] ++ [(v.Buf.length, v.Width)]))
    (hW : v'.Width = 0) (inv : FmtInv E v l) : FmtInv E v' l := by
  have hls : ∀ i, lineStart v' i = lineStart v i := by
    intro i
    unfold lineStart
    rw [hNl]
  have hlen : l < v.Tabs.length := by have := inv.htab; omega
  have htD_eq : v'.Tabs.getD l [] = v.Tabs.getD l [] ++ [(v.Buf.length, v.Width)] := by
    rw [hTabs]
    exact getD_set_self v.Tabs l _ [] hlen
  have htD_ne : ∀ i, i ≠ l → v'.Tabs.getD i [] = v.Tabs.getD i [] := by
    intro i hi
    rw [hTabs]
    exact getD_set_ne v.Tabs l i _ [] (fun h => hi h.symm)
  have hnll : ¬ l < v.Newlines.length := by have := inv.hnl; omega
  constructor
  · rw [hNl]; exact inv.hnl
  · rw [hTabs, List.length_set]; exact inv.htab
  · intro i hi
    rw [hls]
    by_cases hil : i < v.Newlines.length
    · have hstop : lineStop v' i = lineStop v i := by
        unfold lineStop
        rw [hNl, if_pos hil, if_pos hil]
      have hlw : lastWidth v' i = lastWidth v i := by
        unfold lastWidth
        rw [hNl, if_pos hil, if_pos hil]
      have hine : i ≠ l := by have := inv.hnl; omega
      rw [hstop, hlw, htD_ne i hine, hBuf,
        segsOf_stable v.Buf [9] _ _ _ (inv.lineStop_le i)
          (fun p hp => le_of_lt (inv.tabs_lt i p hp))]
      exact inv.hsegs i hi
    · have hieq : i = l := by have := inv.hnl; omega
      subst hieq
      have hstop : lineStop v' i = v.Buf.length + 1 := by
        unfold lineStop
        rw [hNl, if_neg hil, hBuf, List.length_append]
        rfl
      have hlw : lastWidth v' i = 0 := by
        unfold lastWidth
        rw [hNl, if_neg hil, hW]
      have hstopv : lineStop v i = v.Buf.length := by
        unfold lineStop
        rw [if_neg hil]
      have hlwv : lastWidth v i = v.Width := by
        unfold lastWidth
        rw [if_neg hil]
      have hmap := inv.hsegs i (le_refl i)
      rw [hstopv, hlwv] at hmap
      rw [hstop, hlw, htD_eq, hBuf, segsOf_snoc]
      have hend : sliceBuf (v.Buf ++ [9]) (v.Buf.length + 1) (v.Buf.length + 1) = [] := by
        have hlen9 : v.Buf.length + 1 = (v.Buf ++ [9]).length := by simp
        rw [hlen9, sliceBuf_end]
      rw [hend,
        segsOf_stable v.Buf [9] _ _ _ (le_refl _)
          (fun p hp => le_of_lt (inv.tabs_lt i p hp))]
      rw [List.map_append, hmap]
      simp [measureW_nil]
  · show CleanBytes (sliceBuf v'.Buf (trailStart v' l) v'.Buf.length)
    have htr : trailStart v' l = v.Buf.length + 1 := by
      unfold trailStart
      rw [htD_eq, segsLastStart_snoc]
    have hlen9 : v'.Buf.length = v.Buf.length + 1 := by rw [hBuf]; simp
    rw [htr, hlen9, show v.Buf.length + 1 = v'.Buf.length from hlen9.symm, sliceBuf_end]
    exact cleanBytes_nil
  · intro p hp
    rw [hNl] at hp
    rw [hBuf]
    simp only [List.length_append, List.length_cons, List.length_nil]
    have := inv.hnlpos p hp
    omega
  · intro ts hts p hp
    rw [hTabs] at hts
    rw [hBuf]
    simp only [List.length_append, List.length_cons, List.length_nil]
    rcases List.mem_or_eq_of_mem_set hts with h | h
    · have := inv.htabpos ts h p hp
      omega
    · subst h
      rcases List.mem_append.mp hp with h | h
      · have := inv.tabs_lt l p h
        omega
      · simp at h
        subst h
        dsimp only
        omega

/-- Recording a newline preserves the formatting invariant, advancing
the line counter. -/
theorem fmtInv_newline (E : Ext) (v v' : Value) (l : Nat)
    (hBuf : v'.Buf = v.Buf ++ [10])
    (hNl : v'.Newlines = v.Newlines ++ [(v.Buf.length, v.Width)])
    (hTabs : v'.Tabs = v.Tabs ++ [[]])
    (hW : v'.Width = 0) (inv : FmtInv E v l) : FmtInv E v' (l + 1) := by
  have hnl := inv.hnl
  have htab := inv.htab
  have hls : ∀ i, i ≤ l → lineStart v' i = lineStart v i := by
    intro i hi
    unfold lineStart
    rw [hNl]
    split
    · rfl
    · rename_i h0
      rw [getD_append_left _ _ _ _ (by omega)]
  have hlsl : lineStart v' (l + 1) = v.Buf.length + 1 := by
    unfold lineStart
    rw [hNl, if_neg (by omega), show l + 1 - 1 = v.Newlines.length by omega, getD_append_len]
  have htD : ∀ i, i ≤ l → v'.Tabs.getD i [] = v.Tabs.getD i [] := by
    intro i hi
    rw [hTabs]
    exact getD_append_left _ _ _ _ (by omega)
  have htDl : v'.Tabs.getD (l + 1) [] = [] := by
    rw [hTabs, show l + 1 = v.Tabs.length by omega, getD_append_len]
  constructor
  · rw [hNl, List.length_append, hnl]
    rfl
  · rw [hTabs, List.length_append, htab]
    rfl
  · intro i hi
    by_cases hi1 : i ≤ l
    · rw [hls i hi1, htD i hi1]
      have hstop : lineStop v' i = lineStop v i := by
        unfold lineStop
        rw [hNl]
        rw [if_pos (by rw [List.length_append]; simp; omega)]
        by_cases hil : i < v.Newlines.length
        · rw [getD_append_left _ _ _ _ hil, if_pos hil]
        · have hieq : i = v.Newlines.length := by omega
          subst hieq
          rw [getD_append_len, if_neg hil]
      have hlw : lastWidth v' i = lastWidth v i := by
        unfold lastWidth
        rw [hNl]
        rw [if_pos (by rw [List.length_append]; simp; omega)]
        by_cases hil : i < v.Newlines.length
        · rw [getD_append_left _ _ _ _ hil, if_pos hil]
        · have hieq : i = v.Newlines.length := by omega
          subst hieq
          rw [getD_append_len, if_neg hil]
      rw [hstop, hlw, hBuf,
        segsOf_stable v.Buf [10] _ _ _ (inv.lineStop_le i)
          (fun p hp => le_of_lt (inv.tabs_lt i p hp))]
      exact inv.hsegs i hi1
    · have hieq : i = l + 1 := by omega
      subst hieq
      rw [hlsl, htDl]
      have hstop : lineStop v' (l + 1) = v.Buf.length + 1 := by
        unfold lineStop
        rw [hNl, if_neg (by rw [List.length_append]; simp; omega), hBuf]
        simp
      rw [hstop]
      have hlw : lastWidth v' (l + 1) = 0 := by
        unfold lastWidth
        rw [hNl, if_neg (by rw [List.length_append]; simp; omega), hW]
      rw [hlw]
      unfold segsOf
      have hend : sliceBuf v'.Buf (v.Buf.length + 1) (v.Buf.length + 1) = [] := by
        have h10 : v.Buf.length + 1 = v'.Buf.length := by rw [hBuf]; simp
        rw [h10, sliceBuf_end]
      rw [hBuf] at hend ⊢
      rw [hend]
      simp [measureW_nil]
  · show CleanBytes (sliceBuf v'.Buf (trailStart v' (l + 1)) v'.Buf.length)
    have htr : trailStart v' (l + 1) = v.Buf.length + 1 := by
      unfold trailStart
      rw [htDl, hlsl]
      rfl
    have h10 : v'.Buf.length = v.Buf.length + 1 := by rw [hBuf]; simp
    rw [htr, h10, show v.Buf.length + 1 = v'.Buf.length from h10.symm, sliceBuf_end]
    exact cleanBytes_nil
  · intro p hp
    rw [hNl] at hp
    rw [hBuf]
    simp only [List.length_append, List.length_cons, List.length_nil]
    rcases List.mem_append.mp hp with h | h
    · have := inv.hnlpos p h
      omega
    · simp at h
      subst h
      dsimp only
      omega
  · intro ts hts p hp
    rw [hTabs] at hts
    rw [hBuf]
    simp only [List.length_append, List.length_cons, List.length_nil]
    rcases List.mem_append.mp hts with h | h
    · have := inv.htabpos ts h p hp
      omega
    · simp at h
      subst h
      simp at hp

/-- The width table agrees with the terminal on printable ASCII. -/
def ExtOK (E : Ext) : Prop := ∀ c, 0x20 ≤ c → c ≤ 0x7E → E.runeWidth c = 1

/-- The configured invalid placeholder is well-formed UTF-8 and its
declared width is its rendered width (exactly what `WithInvalid`
guarantees via `runewidth.StringWidth`). -/
def InvalidOK (E : Ext) (P : FmtParams) : Prop :=
  ∀ bs, P.invalid = some bs → CleanBytes bs ∧ measureW E bs = P.invalidWidth

/-- The low hex digit of any value is printable ASCII. -/
theorem lowerhex_mod_printable (n : Nat) :
    0x20 ≤ lowerhex (n % 16) ∧ lowerhex (n % 16) ≤ 0x7E :=
  lowerhex_printable (n % 16) (Nat.mod_lt n (by omega))

/-- The hex digits of `\uHHHH` escapes are printable ASCII. -/
theorem hex4_printable (r : Nat) : ∀ b ∈ hex4 r, 0x20 ≤ b ∧ b ≤ 0x7E := by
  intro b hb
  unfold hex4 at hb
  simp at hb
  rcases hb with rfl | rfl | rfl | rfl <;>
    exact lowerhex_printable _ (Nat.mod_lt _ (by omega))

/-- The hex digits of `\UHHHHHHHH` escapes are printable ASCII. -/
theorem hex8_printable (r : Nat) : ∀ b ∈ hex8 r, 0x20 ≤ b ∧ b ≤ 0x7E := by
  intro b hb
  unfold hex8 at hb
  simp at hb
  rcases hb with rfl | rfl | rfl | rfl | rfl | rfl | rfl | rfl <;>
    exact lowerhex_printable _ (Nat.mod_lt _ (by omega))

/-- A printable-ASCII chunk is a good push: clean bytes whose rendered
width is the declared one. -/
theorem pushGood_printable (E : Ext) (hE : ExtOK E) (bs : List Nat)
    (h : ∀ b ∈ bs, 0x20 ≤ b ∧ b ≤ 0x7E) :
    CleanBytes bs ∧ measureW E bs = bs.length :=
  ⟨cleanBytes_ascii bs (fun b hb => by have := (h b hb).2; omega),
    measureW_printable E hE bs h⟩

/-- An action the invariant machinery can absorb: a push of clean bytes
whose declared width is their rendered width, or a tab/newline. -/
def GoodAct (E : Ext) (act : FmtAct) : Prop :=
  (∃ bs w q, act = .push bs w q ∧ CleanBytes bs ∧ measureW E bs = w) ∨
    act = .tab ∨ act = .newline

/-- A push of clean, correctly measured bytes is good. -/
theorem goodPush (E : Ext) (bs : List Nat) (w : Nat) (q : Bool → Bool)
    (hc : CleanBytes bs) (hm : measureW E bs = w) : GoodAct E (.push bs w q) :=
  Or.inl ⟨bs, w, q, rfl, hc, hm⟩

/-- Every action of the scanning loop is good — given that rune tokens
are scalar values, the placeholder is well-formed, and the JSON-mode
invalid branch with no placeholder is not exercised. -/
theorem tokAct_good (E : Ext) (P : FmtParams) (hE : ExtOK E) (hP : InvalidOK E P) (t : Tok)
    (hval : t.isInv = true ∨ Scalar t.runeOf)
    (hbug : P.isJSON = false ∨ P.invalid.isSome = true ∨ t.isInv = false) :
    GoodAct E (tokAct E P t) := by
  cases t with
  | invalid b =>
    cases hinv : P.invalid with
    | some inv =>
      simp only [tokAct, hinv]
      exact goodPush E _ _ _ (hP inv hinv).1 (hP inv hinv).2
    | none =>
      have hj : P.isJSON = false := by
        rcases hbug with h | h | h
        · exact h
        · rw [hinv] at h; simp at h
        · simp [Tok.isInv] at h
      simp only [tokAct, hinv, hj]
      refine goodPush E _ _ _ ?_ ?_
      · refine cleanBytes_ascii _ ?_
        intro x hx
        simp at hx
        rcases hx with rfl | rfl | rfl | rfl
        · omega
        · omega
        · have := lowerhex_mod_printable (b / 16); omega
        · have := lowerhex_mod_printable b; omega
      · rw [measureW_printable E hE]
        · rfl
        · intro x hx
          simp at hx
          rcases hx with rfl | rfl | rfl | rfl
          · omega
          · omega
          · exact lowerhex_mod_printable (b / 16)
          · exact lowerhex_mod_printable b
  | rune r =>
    have hr : Scalar r := by
      rcases hval with h | h
      · simp [Tok.isInv] at h
      · exact h
    simp only [tokAct]
    by_cases h1 : P.isJSON = true ∧ r = 7
    · rw [if_pos h1]
      exact goodPush E _ _ _ (pushGood_printable E hE _ (by decide)).1
        (pushGood_printable E hE _ (by decide)).2
    rw [if_neg h1]
    by_cases h2 : P.isJSON = true ∧ r = 8
    · rw [if_pos h2]
      exact goodPush E _ _ _ (pushGood_printable E hE _ (by decide)).1
        (pushGood_printable E hE _ (by decide)).2
    rw [if_neg h2]
    by_cases h3 : P.isJSON = true ∧ r = 12
    · rw [if_pos h3]
      exact goodPush E _ _ _ (pushGood_printable E hE _ (by decide)).1
        (pushGood_printable E hE _ (by decide)).2
    rw [if_neg h3]
    by_cases h4 : P.isJSON = true ∧ r = 10
    · rw [if_pos h4]
      exact goodPush E _ _ _ (pushGood_printable E hE _ (by decide)).1
        (pushGood_printable E hE _ (by decide)).2
    rw [if_neg h4]
    by_cases h5 : P.isJSON = true ∧ r = 13
    · rw [if_pos h5]
      exact goodPush E _ _ _ (pushGood_printable E hE _ (by decide)).1
        (pushGood_printable E hE _ (by decide)).2
    rw [if_neg h5]
    by_cases h6 : P.isJSON = true ∧ r = 9
    · rw [if_pos h6]
      exact goodPush E _ _ _ (pushGood_printable E hE _ (by decide)).1
        (pushGood_printable E hE _ (by decide)).2
    rw [if_neg h6]
    by_cases h7 : P.isJSON = true ∧ r = 34
    · rw [if_pos h7]
      exact goodPush E _ _ _ (pushGood_printable E hE _ (by decide)).1
        (pushGood_printable E hE _ (by decide)).2
    rw [if_neg h7]
    by_cases h8 : P.isJSON = true ∧ r = 92
    · rw [if_pos h8]
      exact goodPush E _ _ _ (pushGood_printable E hE _ (by decide)).1
        (pushGood_printable E hE _ (by decide)).2
    rw [if_neg h8]
    by_cases h9 : P.isRaw = true
    · rw [if_pos h9]
      by_cases h9a : r = P.sep
      · rw [if_pos h9a]
        exact goodPush E _ _ _ (cleanBytes_encodeRune r hr) (measureW_encodeRune E r hr)
      rw [if_neg h9a]
      by_cases h9b : r = P.quote ∧ P.quote ≠ 0
      · rw [if_pos h9b]
        refine goodPush E _ _ _ (CleanBytes.append (cleanBytes_encodeRune r hr)
          (cleanBytes_encodeRune r hr)) ?_
        rw [measureW_append_clean E _ _ (cleanBytes_encodeRune r hr),
          measureW_encodeRune E r hr]
      · rw [if_neg h9b]
        exact goodPush E _ _ _ (cleanBytes_encodeRune r hr) (measureW_encodeRune E r hr)
    rw [if_neg h9]
    by_cases h10 : E.isGraphic r = true
    · rw [if_pos h10]
      exact goodPush E _ _ _ (cleanBytes_encodeRune r hr) (measureW_encodeRune E r hr)
    rw [if_neg h10]
    by_cases h11 : r = 7
    · rw [if_pos h11]
      exact goodPush E _ _ _ (pushGood_printable E hE _ (by decide)).1
        (pushGood_printable E hE _ (by decide)).2
    rw [if_neg h11]
    by_cases h12 : r = 8
    · rw [if_pos h12]
      exact goodPush E _ _ _ (pushGood_printable E hE _ (by decide)).1
        (pushGood_printable E hE _ (by decide)).2
    rw [if_neg h12]
    by_cases h13 : r = 12
    · rw [if_pos h13]
      exact goodPush E _ _ _ (pushGood_printable E hE _ (by decide)).1
        (pushGood_printable E hE _ (by decide)).2
    rw [if_neg h13]
    by_cases h14 : r = 13
    · rw [if_pos h14]
      exact goodPush E _ _ _ (pushGood_printable E hE _ (by decide)).1
        (pushGood_printable E hE _ (by decide)).2
    rw [if_neg h14]
    by_cases h15 : r = 11
    · rw [if_pos h15]
      exact goodPush E _ _ _ (pushGood_printable E hE _ (by decide)).1
        (pushGood_printable E hE _ (by decide)).2
    rw [if_neg h15]
    by_cases h16 : r = 9
    · rw [if_pos h16]
      exact Or.inr (Or.inl rfl)
    rw [if_neg h16]
    by_cases h17 : r = 10
    · rw [if_pos h17]
      exact Or.inr (Or.inr rfl)
    rw [if_neg h17]
    by_cases h18 : r < 32 ∧ ¬P.isJSON = true
    · rw [if_pos h18]
      refine goodPush E _ _ _ ?_ ?_
      · refine cleanBytes_ascii _ ?_
        intro x hx
        simp at hx
        rcases hx with rfl | rfl | rfl | rfl
        · omega
        · omega
        · have := lowerhex_mod_printable (r / 16); omega
        · have := lowerhex_mod_printable r; omega
      · rw [measureW_printable E hE]
        · rfl
        · intro x hx
          simp at hx
          rcases hx with rfl | rfl | rfl | rfl
          · omega
          · omega
          · exact lowerhex_mod_printable (r / 16)
          · exact lowerhex_mod_printable r
    rw [if_neg h18]
    by_cases h19 : r < 65536
    · rw [if_pos h19]
      refine goodPush E _ _ _ ?_ ?_
      · refine cleanBytes_ascii _ ?_
        intro x hx
        simp at hx
        rcases hx with rfl | rfl | hx
        · omega
        · omega
        · have := hex4_printable r x hx
          omega
      · rw [measureW_printable E hE]
        · simp [hex4]
        · intro x hx
          simp at hx
          rcases hx with rfl | rfl | hx
          · omega
          · omega
          · exact hex4_printable r x hx
    rw [if_neg h19]
    by_cases h20 : r ≤ 1114111
    · rw [if_pos h20]
      refine goodPush E _ _ _ ?_ ?_
      · refine cleanBytes_ascii _ ?_
        intro x hx
        simp at hx
        rcases hx with rfl | rfl | hx
        · omega
        · omega
        · have := hex8_printable r x hx
          omega
      · rw [measureW_printable E hE]
        · simp [hex8]
        · intro x hx
          simp at hx
          rcases hx with rfl | rfl | hx
          · omega
          · omega
          · exact hex8_printable r x hx
    · rw [if_neg h20]
      refine goodPush E _ _ _ (cleanBytes_ascii _ (by decide)) ?_
      rw [measureW_printable E hE _ (by decide)]
      simp [hex4]

/-- One loop iteration preserves the formatting invariant. -/
theorem fmtInv_step (E : Ext) (P : FmtParams) (hE : ExtOK E) (hP : InvalidOK E P)
    (st : Value × Nat) (t : Tok)
    (hval : t.isInv = true ∨ Scalar t.runeOf)
    (hbug : P.isJSON = false ∨ P.invalid.isSome = true ∨ t.isInv = false)
    (inv : FmtInv E st.1 st.2) :
    FmtInv E (formatStep E P st t).1 (formatStep E P st t).2 := by
  obtain ⟨v, l⟩ := st
  rcases tokAct_good E P hE hP t hval hbug with ⟨bs, w, q, hact, hc, hm⟩ | hact | hact
  · unfold formatStep
    rw [hact]
    exact fmtInv_push E v _ l bs rfl rfl rfl (by dsimp [applyAct]; rw [hm]) hc inv
  · unfold formatStep
    rw [hact]
    exact fmtInv_tab E v _ l rfl rfl rfl rfl inv
  · unfold formatStep
    rw [hact]
    exact fmtInv_newline E v _ l rfl rfl rfl rfl inv

/-- The invariant holds after folding the whole token stream. -/
theorem fmtInv_fold (E : Ext) (P : FmtParams) (hE : ExtOK E) (hP : InvalidOK E P)
    (toks : List Tok)
    (hval : ∀ t ∈ toks, t.isInv = true ∨ Scalar t.runeOf)
    (hbug : ∀ t ∈ toks, P.isJSON = false ∨ P.invalid.isSome = true ∨ t.isInv = false)
    (st : Value × Nat) (inv : FmtInv E st.1 st.2) :
    FmtInv E (toks.foldl (formatStep E P) st).1 (toks.foldl (formatStep E P) st).2 := by
  induction toks generalizing st with
  | nil => exact inv
  | cons t ts ih =>
    exact ih (fun x hx => hval x (by simp [hx])) (fun x hx => hbug x (by simp [hx])) _
      (fmtInv_step E P hE hP st t (hval t (by simp)) (hbug t (by simp)) inv)

/-- The invariant holds at the start of the scan. -/
theorem fmtInv_init (E : Ext) : FmtInv E ({ Tabs := [[]] } : Value) 0 := by
  constructor
  · rfl
  · rfl
  · intro i hi
    have : i = 0 := by omega
    subst this
    rfl
  · exact cleanBytes_nil
  · intro p hp
    simp at hp
  · intro ts hts p hp
    simp at hts
    subst hts
    simp at hp

/-- The running column of the tab-stop fold of `tabwidth`. -/
def tabCol (tab col : Nat) (ts : List (Nat × Nat)) : Nat :=
  ts.foldl (fun width t => (width + t.2) + (tab - (width + t.2) % tab)) col

/-- `tabwidth` is the tab-stop fold measured from the offset. -/
theorem tabwidth_eq_tabCol (ts : List (Nat × Nat)) (offset tab : Nat) :
    tabwidth ts offset tab = tabCol tab offset ts - offset := rfl

/-- The tab-stop fold never moves the column left. -/
theorem tabCol_ge (tab : Nat) (ts : List (Nat × Nat)) : ∀ col, col ≤ tabCol tab col ts := by
  induction ts with
  | nil => intro col; exact le_refl _
  | cons t ts ih =>
    intro col
    show col ≤ tabCol tab ((col + t.2) + (tab - (col + t.2) % tab)) ts
    exact le_trans (by omega) (ih _)

/-- Rendering segments whose measures are the recorded tab widths plus a
trailing width lands on the tab-stop fold plus the trailing width. -/
theorem renderSegs_eq (E : Ext) (tab : Nat) (ts : List (Nat × Nat)) :
    ∀ (segs : List (List Nat)) (col lastw : Nat),
    segs.map (measureW E) = ts.map Prod.snd ++ [lastw] →
    renderSegs E tab col segs = tabCol tab col ts + lastw := by
  induction ts with
  | nil =>
    intro segs col lastw hmap
    cases segs with
    | nil => simp at hmap
    | cons s segs' =>
      cases segs' with
      | nil =>
        simp at hmap
        unfold renderSegs
        rw [hmap]
        rfl
      | cons s1 ss => simp at hmap
  | cons t ts ih =>
    intro segs col lastw hmap
    cases segs with
    | nil => simp at hmap
    | cons s segs' =>
      simp only [List.map_cons, List.cons_append, List.cons.injEq] at hmap
      obtain ⟨h1, h2⟩ := hmap
      cases segs' with
      | nil =>
        exfalso
        rcases ts with _ | ⟨u, us⟩ <;> simp at h2
      | cons s1 ss =>
        show renderSegs E tab (nextStop (col + measureW E s) tab) (s1 :: ss) = _
        rw [h1]
        show _ = tabCol tab ((col + t.2) + (tab - (col + t.2) % tab)) ts + lastw
        exact ih (s1 :: ss) (nextStop (col + t.2) tab) lastw h2

/-- Under the invariant, `LineWidth` equals the specification's rendered
line width for every physical line. -/
theorem lineWidth_eq_spec (E : Ext) (v : Value) (l : Nat) (inv : FmtInv E v l)
    (i offset tab : Nat) (hi : i ≤ l) :
    v.LineWidth i offset tab = specLineWidth E v i offset tab := by
  have hmap := inv.hsegs i hi
  have hnl := inv.hnl
  have hge := tabCol_ge tab (v.Tabs.getD i []) offset
  unfold specLineWidth
  rw [renderSegs_eq E tab _ _ _ _ hmap]
  unfold Value.LineWidth lastWidth
  rw [tabwidth_eq_tabCol]
  by_cases hil : i < v.Newlines.length
  · rw [if_pos hil, if_pos hil, if_neg (show ¬i = v.Newlines.length by omega)]
    by_cases hts : v.Tabs.getD i [] = []
    · rw [if_neg (by simp only [ne_eq, not_not]; exact hts)]
      have hcol : tabCol tab offset (v.Tabs.getD i []) = offset := by rw [hts]; rfl
      omega
    · rw [if_pos hts]
      omega
  · rw [if_neg hil, if_neg hil, if_pos (show i = v.Newlines.length by omega)]
    by_cases hts : v.Tabs.getD i [] = []
    · rw [if_neg (by simp only [ne_eq, not_not]; exact hts)]
      have hcol : tabCol tab offset (v.Tabs.getD i []) = offset := by rw [hts]; rfl
      omega
    · rw [if_pos hts]
      omega

/-- Shifting the base of a running maximum out of the fold. -/
theorem foldl_max_shift (f : Nat → Nat) (xs : List Nat) :
    ∀ a b, xs.foldl (fun w x => max w (f x)) (max a b) =
      max a (xs.foldl (fun w x => max w (f x)) b) := by
  induction xs with
  | nil => intro a b; rfl
  | cons x xs ih =>
    intro a b
    show xs.foldl _ (max (max a b) (f x)) = max a (xs.foldl _ (max b (f x)))
    rw [Nat.max_assoc]
    exact ih a (max b (f x))

/-- The base is below the running maximum. -/
theorem foldl_max_base_le (f : Nat → Nat) (xs : List Nat) :
    ∀ a, a ≤ xs.foldl (fun w x => max w (f x)) a := by
  induction xs with
  | nil => intro a; exact le_refl _
  | cons x xs ih =>
    intro a
    exact le_trans (Nat.le_max_left a (f x)) (ih _)

/-- Every member's value is below the running maximum. -/
theorem foldl_max_le_of_mem (f : Nat → Nat) (xs : List Nat) (y : Nat) (hy : y ∈ xs) :
    ∀ a, f y ≤ xs.foldl (fun w x => max w (f x)) a := by
  induction xs with
  | nil => simp at hy
  | cons x xs ih =>
    intro a
    rcases List.mem_cons.mp hy with rfl | hy'
    · exact le_trans (Nat.le_max_right a (f y)) (foldl_max_base_le f xs _)
    · exact ih hy' _

/-- Running maxima agree when the functions agree on the list. -/
theorem foldl_max_congr (f g : Nat → Nat) (xs : List Nat) (h : ∀ x ∈ xs, f x = g x) :
    ∀ a, xs.foldl (fun w x => max w (f x)) a = xs.foldl (fun w x => max w (g x)) a := by
  induction xs with
  | nil => intro a; rfl
  | cons x xs ih =>
    intro a
    show xs.foldl _ (max a (f x)) = xs.foldl _ (max a (g x))
    rw [h x (by simp)]
    exact ih (fun y hy => h y (by simp [hy])) _

/-- Under the invariant, `MaxWidth` is the specification's maximum. -/
theorem maxWidth_eq_of_inv (E : Ext) (v : Value) (l : Nat) (inv : FmtInv E v l)
    (offset tab : Nat) : v.MaxWidth offset tab = specMaxWidth E v offset tab := by
  have hnl := inv.hnl
  unfold Value.MaxWidth specMaxWidth
  rw [show v.Tabs.length = v.Newlines.length + 1 by rw [inv.htab, inv.hnl]]
  rw [foldl_max_congr (fun i => v.LineWidth i offset tab)
    (fun i => specLineWidth E v i offset tab) _
    (fun i hi => lineWidth_eq_spec E v l inv i offset tab
      (by simp [List.mem_range] at hi; omega)) v.Width]
  rw [show v.Width = max v.Width 0 by simp, foldl_max_shift]
  have hmem : l ∈ List.range (v.Newlines.length + 1) := by
    simp [List.mem_range]
    omega
  have hle : v.Width ≤ specLineWidth E v l offset tab := by
    rw [← lineWidth_eq_spec E v l inv l offset tab (le_refl l)]
    unfold Value.LineWidth
    rw [if_neg (show ¬l < v.Newlines.length by omega),
      if_pos (show l = v.Newlines.length by omega)]
    split <;> omega
  exact Nat.max_eq_right (le_trans hle
    (foldl_max_le_of_mem (fun i => specLineWidth E v i offset tab) _ l hmem 0))

/-- C1, amended: for every input byte sequence and every combination of
escaping options — except JSON mode with no invalid placeholder on an
input containing invalid UTF-8, where the recorded width omits the
six-cell `�` escape — and for every starting offset and tab width,
`MaxWidth(offset, tab)` equals the maximum over all physical lines (the
segments of `Buf` delimited by the recorded newlines) of the line's true
rendered terminal width with the recorded tabs expanded at tab stops
relative to the starting offset.  The width table is assumed to render
printable ASCII one cell wide and the placeholder's declared width to be
its rendered width, as `go-runewidth` does. -/
theorem FormatBytes_MaxWidth_eq (E : Ext) (P : FmtParams) (src : List Nat)
    (offset tab : Nat) (hE : ExtOK E) (hP : InvalidOK E P)
    (hbug : P.isJSON = false ∨ P.invalid.isSome = true ∨
      ∀ t ∈ utf8Tokenize src, t.isInv = false) :
    (FormatBytes E P src).MaxWidth offset tab =
      specMaxWidth E (FormatBytes E P src) offset tab := by
  have hbug2 : ∀ t ∈ utf8Tokenize src,
      P.isJSON = false ∨ P.invalid.isSome = true ∨ t.isInv = false := by
    intro t ht
    rcases hbug with h | h | h
    · exact Or.inl h
    · exact Or.inr (Or.inl h)
    · exact Or.inr (Or.inr (h t ht))
  have inv := fmtInv_fold E P hE hP (utf8Tokenize src) (utf8Tokenize_valid src) hbug2
    ({ Tabs := [[]] }, 0) (fmtInv_init E)
  exact maxWidth_eq_of_inv E _ _ inv offset tab

/-- Witness for the amended C1 at a concrete tabbed input: the escaper
on `"a\tb"` records a value whose `MaxWidth(0, 8)` is 9, and the spec
maximum agrees. -/
theorem FormatBytes_MaxWidth_eq_witness :
    (FormatBytes extASCII {} [97, 9, 98]).MaxWidth 0 8 =
        specMaxWidth extASCII (FormatBytes extASCII {} [97, 9, 98]) 0 8 ∧
      (FormatBytes extASCII {} [97, 9, 98]).MaxWidth 0 8 = 9 :=
  ⟨FormatBytes_MaxWidth_eq extASCII {} [97, 9, 98] 0 8
      (fun c h1 h2 => by simp only [extASCII]; rw [if_pos ⟨h1, h2⟩])
      (fun bs h => by simp at h)
      (Or.inl rfl),
    by decide⟩

/-! ## Crosstab view (view.go)

Strings are byte lists; the string helpers from the Go standard library
(`strings.TrimSpace`, `strconv.Atoi`, `strings.EqualFold`) are modelled
by their documented contracts, with the rune case-folding equivalence of
`EqualFold` kept as a parameter `foldEq`. -/

/-- `unicode.IsSpace`: the Unicode White_Space code points. -/
def goIsSpace (r : Nat) : Bool :=
  decide (r = 0x20 ∨ (9 ≤ r ∧ r ≤ 13) ∨ r = 0x85 ∨ r = 0xA0 ∨ r = 0x1680 ∨
    (0x2000 ≤ r ∧ r ≤ 0x200A) ∨ r = 0x2028 ∨ r = 0x2029 ∨ r = 0x202F ∨
    r = 0x205F ∨ r = 0x3000)

/-- Rune/byte-span decomposition of a byte string, decoding as
`utf8.DecodeRuneInString` does (each span carrying its decoded rune, a
failure consuming one byte as U+FFFD). -/
def tokSpansAux : Nat → List Nat → List (Nat × List Nat)
  | 0, _ => []
  | _, [] => []
  | fuel + 1, b :: rest =>
    if b < 0x80 then (b, [b]) :: tokSpansAux fuel rest
    else
      match utf8DecodeTail b rest with
      | (r, extra) =>
        if extra = 0 then (0xFFFD, [b]) :: tokSpansAux fuel rest
        else (r, b :: rest.take extra) :: tokSpansAux fuel (rest.drop extra)

/-- The rune spans of a byte string. -/
def tokSpans (bs : List Nat) : List (Nat × List Nat) := tokSpansAux bs.length bs

/-- `strings.TrimSpace`: drop leading and trailing White_Space runes. -/
def goTrimSpace (bs : List Nat) : List Nat :=
  ((((tokSpans bs).dropWhile (fun t => goIsSpace t.1)).reverse.dropWhile
      (fun t => goIsSpace t.1)).reverse.map Prod.snd).flatten

/-- The decimal value of a digit string. -/
def goAtoiDigits (ds : List Nat) : Nat := ds.foldl (fun acc d => acc * 10 + (d - 48)) 0

/-- The digit-and-range part of `strconv.Atoi` after the optional sign
has been split off: every remaining character must be a decimal digit
and the value must fit a 64-bit signed integer. -/
def goAtoiCore (neg : Bool) (ds : List Nat) : Option Int :=
  if ds = [] then none
  else if ds.all (fun d => 48 ≤ d && d ≤ 57) then
    if neg then
      if goAtoiDigits ds ≤ 2 ^ 63 then some (-(goAtoiDigits ds : Int)) else none
    else
      if goAtoiDigits ds < 2 ^ 63 then some ((goAtoiDigits ds : Int)) else none
  else none

/-- `strconv.Atoi`: parse an optionally signed decimal integer, failing
on an empty string, a stray character, or 64-bit overflow. -/
def goAtoi (s : List Nat) : Option Int :=
  match s with
  | [] => none
  | c :: rest => goAtoiCore (decide (c = 45)) (if c = 43 ∨ c = 45 then rest else s)

/-- `strings.EqualFold` under the rune case-folding equivalence
`foldEq`: the strings decode to rune sequences of equal length that are
pointwise fold-equal. -/
def goEqualFold (foldEq : Nat → Nat → Bool) (s t : List Nat) : Bool :=
  ((utf8Tokenize s).map Tok.runeOf).length == ((utf8Tokenize t).map Tok.runeOf).length &&
    ((((utf8Tokenize s).map Tok.runeOf).zip ((utf8Tokenize t).map Tok.runeOf)).all
      (fun p => foldEq p.1 p.2))

/-- The name-scanning loop of `indexOf` (view.go): the first index whose
trimmed column name is fold-equal to `s`. -/
def indexOfName (foldEq : Nat → Nat → Bool) (s : List Nat) :
    List (List Nat) → Nat → Option Nat
  | [], _ => none
  | vv :: rest, i =>
    if goEqualFold foldEq s (goTrimSpace vv) then some i
    else indexOfName foldEq s rest (i + 1)

/-- `indexOf` (view.go): resolve a column specifier against the column
names `v` — a trimmed specifier parsing as an integer is a 1-based
ordinal, anything else a trimmed fold-equal name; `none` is Go's `-1`. -/
def indexOf (foldEq : Nat → Nat → Bool) (v : List (List Nat)) (s : List Nat) : Option Nat :=
  match goAtoi (goTrimSpace s) with
  | some i =>
    if 0 ≤ i - 1 ∧ i - 1 < (v.length : Int) then some (i - 1).toNat else none
  | none => indexOfName foldEq (goTrimSpace s) v 0

/-- `findIndex` (view.go): the positional default `i` when the specifier
is empty (valid only when in range), otherwise `indexOf`. -/
def findIndex (foldEq : Nat → Nat → Bool) (v : List (List Nat)) (s : List Nat) (i : Nat) :
    Option Nat :=
  if s = [] then (if i < v.length then some i else none)
  else indexOf foldEq v s

/-- The `Error` constants of tblfmt.go reachable from the table encoder
and the crosstab view. -/
inductive GoError where
  | resultSetIsNil
  | resultSetHasNoColumns
  | crosstabResultMustHaveAtLeast3Columns
  | crosstabDataColumnMustBeSpecifiedWhenQueryReturnsMoreThanThreeColumns
  | crosstabVerticalAndHorizontalColumnsMustNotBeSame
  | crosstabVerticalColumnNotInResult
  | crosstabHorizontalColumnNotInResult
  | crosstabDataColumnNotInResult
  | crosstabHorizontalSortColumnNotInResult
  | crosstabDuplicateVerticalAndHorizontalValue
  | crosstabHorizontalSortColumnIsNotANumber
deriving DecidableEq, Repr

/-- `hkey` (view.go): a horizontal key with its parsed sort value. -/
structure hkey where
  v : List Nat
  s : Int
deriving DecidableEq, Repr

/-- `vkeyAppend` (view.go): append `k` unless it is already present. -/
def vkeyAppend (v : List (List Nat)) (k : List Nat) : List (List Nat) :=
  if v.any (fun z => z == k) then v else v ++ [k]

/-- `hkeyAppend` (view.go): append `k` unless a key with the same
horizontal value is already present. -/
def hkeyAppend (v : List hkey) (k : hkey) : List hkey :=
  if v.any (fun z => z.v == k.v) then v else v ++ [k]

/-- Lookup in an association list modelling a Go map. -/
def alookup {α β : Type} [DecidableEq α] : List (α × β) → α → Option β
  | [], _ => none
  | p :: rest, k => if p.1 = k then some p.2 else alookup rest k

/-- Update of an association list at an existing key. -/
def aupdate {α β : Type} [DecidableEq α] (m : List (α × β)) (k : α) (b : β) : List (α × β) :=
  m.map (fun p => if p.1 = k then (k, b) else p)

/-- The fields of `CrosstabView` filled in by `build` and `add`: the
column specifiers (resolved to column names during `build`), the
first-seen vertical and horizontal key orders, and the stored pivot
cells (the map of maps `vals`, modelled as an association list). -/
structure CrosstabView where
  v : List Nat := []
  h : List Nat := []
  d : List Nat := []
  s : List Nat := []
  vkeys : List (List Nat) := []
  hkeys : List hkey := []
  vals : List (List Nat × List (List Nat × List Nat)) := []
deriving DecidableEq, Repr

/-- The sort value of a row: `0` without a sort column, otherwise
`strconv.Atoi` of the formatted sort cell. -/
def sortVal (s : Option Value) : Option Int :=
  match s with
  | none => some 0
  | some sv => goAtoi sv.Buf

/-- `CrosstabView.add` (view.go): parse the sort cell (failing when it
is not an integer), record the first-seen vertical and horizontal keys,
and store the data value, failing on a duplicate (vertical, horizontal)
pair rather than overwriting. -/
def CrosstabView.add (view : CrosstabView) (d : List Nat) (v h : Value) (s : Option Value) :
    Except GoError CrosstabView :=
  match sortVal s with
  | none => .error .crosstabHorizontalSortColumnIsNotANumber
  | some sval =>
    match alookup view.vals v.Buf with
    | none =>
      .ok { view with
              vkeys := vkeyAppend view.vkeys v.Buf
              hkeys := hkeyAppend view.hkeys ⟨h.Buf, sval⟩
              vals := view.vals ++ [(v.Buf, [(h.Buf, d)])] }
    | some inner =>
      match alookup inner h.Buf with
      | some _ => .error .crosstabDuplicateVerticalAndHorizontalValue
      | none =>
        .ok { view with
                vkeys := vkeyAppend view.vkeys v.Buf
                hkeys := hkeyAppend view.hkeys ⟨h.Buf, sval⟩
                vals := aupdate view.vals v.Buf (inner ++ [(h.Buf, d)]) }

/-- The options of the crosstab's formatter,
`NewEscapeFormatter(WithIsRaw(true, 0, 0))`. -/
def rawParams : FmtParams := { isRaw := true }

/-- The raw-formatted value of a cell under the crosstab's formatter. -/
def rawValue (E : Ext) (cell : List Nat) : Value := FormatBytes E rawParams cell

/-- One iteration of the row loop of `CrosstabView.build`: raw-format
the vertical, horizontal and (when present) sort cells and `add` the
row's data value. -/
def crosstabRow (E : Ext) (vindex hindex dindex : Nat) (sindex : Option Nat)
    (view : CrosstabView) (row : List (List Nat)) : Except GoError CrosstabView :=
  view.add (row.getD dindex []) (rawValue E (row.getD vindex []))
    (rawValue E (row.getD hindex []))
    (sindex.map (fun si => rawValue E (row.getD si [])))

/-- The row loop of `CrosstabView.build`, returning at the first failed
`add`. -/
def buildRows (E : Ext) (vindex hindex dindex : Nat) (sindex : Option Nat) :
    CrosstabView → List (List (List Nat)) → Except GoError CrosstabView
  | view, [] => .ok view
  | view, row :: rest =>
    match crosstabRow E vindex hindex dindex sindex view row with
    | .error e => .error e
    | .ok view => buildRows E vindex hindex dindex sindex view rest

/-- The `ddef` computation of `CrosstabView.build` (view.go): when no
data column is specified, the last column among 0, 1, 2 that is neither
the vertical nor the horizontal column (the loop's final assignment),
otherwise 2. -/
def ddefFor (d : List Nat) (vindex hindex : Nat) : Nat :=
  if d = [] then
    [0, 1, 2].foldl (fun acc i => if i ≠ vindex ∧ i ≠ hindex then i else acc) 2
  else 2

/-- The sort-column resolution of `CrosstabView.build` (view.go): no
sort index when the specifier is empty, otherwise `indexOf`, failing
when it does not resolve. -/
def resolveSort (foldEq : Nat → Nat → Bool) (cols : List (List Nat)) (s : List Nat) :
    Except GoError (Option Nat) :=
  if s = [] then .ok none
  else
    match indexOf foldEq cols s with
    | some si => .ok (some si)
    | none => .error .crosstabHorizontalSortColumnNotInResult

/-- `CrosstabView.build` (view.go) up to the final in-place sort: the
column-count checks, the resolution of the vertical, horizontal, data
and sort columns, and the row loop; the returned flag records whether a
sort column was resolved, in which case the caller reorders `hkeys` with
`sort.Slice` (modelled relationally by `sortSlicePost`). -/
def CrosstabView.build (view : CrosstabView) (E : Ext) (foldEq : Nat → Nat → Bool)
    (cols : List (List Nat)) (rows : List (List (List Nat))) :
    Except GoError (CrosstabView × Bool) :=
  if cols.length < 3 then .error .crosstabResultMustHaveAtLeast3Columns
  else if 3 < cols.length ∧ view.d = [] then
    .error .crosstabDataColumnMustBeSpecifiedWhenQueryReturnsMoreThanThreeColumns
  else
    match findIndex foldEq cols view.v 0 with
    | none => .error .crosstabVerticalColumnNotInResult
    | some vindex =>
      match findIndex foldEq cols view.h 1 with
      | none => .error .crosstabHorizontalColumnNotInResult
      | some hindex =>
        match findIndex foldEq cols view.d (ddefFor view.d vindex hindex) with
        | none => .error .crosstabDataColumnNotInResult
        | some dindex =>
          match resolveSort foldEq cols view.s with
          | .error e => .error e
          | .ok sindex =>
            match buildRows E vindex hindex dindex sindex
                { view with
                    v := cols.getD vindex []
                    h := cols.getD hindex []
                    d := cols.getD dindex [] } rows with
            | .error e => .error e
            | .ok view => .ok (view, sindex.isSome)

/-- `NewCrosstabView` (view.go): after the options are applied, equal
nonempty vertical and horizontal specifiers are rejected, then the view
is built. -/
def NewCrosstabView (E : Ext) (foldEq : Nat → Nat → Bool) (cols : List (List Nat))
    (rows : List (List (List Nat))) (v h d s : List Nat) :
    Except GoError (CrosstabView × Bool) :=
  if v ≠ [] ∧ h ≠ [] ∧ v = h then .error .crosstabVerticalAndHorizontalColumnsMustNotBeSame
  else CrosstabView.build { v := v, h := h, d := d, s := s } E foldEq cols rows

/-- The contract of Go's `sort.Slice` under the comparator
`hkeys[i].s < hkeys[j].s` used by `build`: the result is a permutation
of the input that is sorted by the sort values.  `sort.Slice` is
documented as not stable, so nothing further relates equal keys. -/
def sortSlicePost (l l' : List hkey) : Prop :=
  l.Perm l' ∧ l'.Pairwise (fun a b => a.s ≤ b.s)

/-- `CrosstabView.Columns` (view.go): the resolved vertical column name
followed by the horizontal keys in order. -/
def CrosstabView.Columns (view : CrosstabView) : List (List Nat) :=
  view.v :: view.hkeys.map hkey.v

/-- `CrosstabView.Scan` (view.go) for a destination row of width
`hkeys.length + 1` at vertical position `pos`: slot 0 receives the
vertical key and slot `i + 1` the value stored under horizontal key `i`
(`none` — Go `nil` — when the pivot cell is empty). -/
def CrosstabView.ScanRow (view : CrosstabView) (pos : Nat) : List (Option (List Nat)) :=
  some (view.vkeys.getD pos []) ::
    view.hkeys.map (fun hk =>
      alookup ((alookup view.vals (view.vkeys.getD pos [])).getD []) hk.v)

/-- The `ok` projection of an `Except` result. -/
def okOf {ε α : Type} : Except ε α → Option α
  | .ok a => some a
  | .error _ => none

/-- The `error` projection of an `Except` result. -/
def errOf {ε α : Type} : Except ε α → Option ε
  | .ok _ => none
  | .error e => some e

/-- C6: for the 3-column source `(v, h, c)` with rows
`[("v1","h2","foo"), ("v2","h1","bar"), ("v1","h0","baz"),
("v0","h4","qux")]` and no explicit column parameters, the crosstab view
builds successfully (with no sort), reports
`Columns() = [v, h2, h1, h0, h4]` — the horizontal keys in first-seen
order — and scanning the row of vertical key `v1` yields `v1` in column
0, `foo` under `h2`, `baz` under `h0` and NULL under `h1` and `h4`. -/
theorem crosstab_scenarioB :
    (okOf (NewCrosstabView extASCII (fun a b => a == b)
        [[118], [104], [99]]
        [[[118, 49], [104, 50], [102, 111, 111]],
         [[118, 50], [104, 49], [98, 97, 114]],
         [[118, 49], [104, 48], [98, 97, 122]],
         [[118, 48], [104, 52], [113, 117, 120]]] [] [] [] [])).map
      (fun p => (p.1.Columns, p.1.ScanRow 0, p.2)) =
    some ([[118], [104, 50], [104, 49], [104, 48], [104, 52]],
      [some [118, 49], some [102, 111, 111], none, some [98, 97, 122], none], false) := by
  decide

/-- Counterexample to C7: with columns `a`, `b`, `c`, an unspecified
vertical parameter (defaulting positionally to column 0) and the
horizontal parameter `a` (resolving by name to the same column 0),
`NewCrosstabView` succeeds — both resolved headers are `a` — instead of
failing with the vertical-and-horizontal-columns-must-not-be-same error:
the error is only raised when both parameters are nonempty and equal as
strings before resolution. -/
theorem NewCrosstabView_sameColumn_cex :
    (okOf (NewCrosstabView extASCII (fun a b => a == b)
        [[97], [98], [99]] [] [] [97] [] [])).map (fun p => (p.1.v, p.1.h)) =
      some ([97], [97]) := by
  decide

theorem add_ne_same (view : CrosstabView) (d : List Nat) (v h : Value) (s : Option Value) :
    CrosstabView.add view d v h s ≠
      .error .crosstabVerticalAndHorizontalColumnsMustNotBeSame := by
  intro hEq
  unfold CrosstabView.add at hEq
  cases hs : sortVal s with
  | none => simp [hs] at hEq
  | some sval =>
    simp only [hs] at hEq
    cases hv : alookup view.vals v.Buf with
    | none => simp [hv] at hEq
    | some inner =>
      simp only [hv] at hEq
      cases hh : alookup inner h.Buf with
      | none => simp [hh] at hEq
      | some z => simp [hh] at hEq

theorem crosstabRow_ne_same (E : Ext) (vindex hindex dindex : Nat) (sindex : Option Nat)
    (view : CrosstabView) (row : List (List Nat)) :
    crosstabRow E vindex hindex dindex sindex view row ≠
      .error .crosstabVerticalAndHorizontalColumnsMustNotBeSame :=
  add_ne_same view _ _ _ _

theorem buildRows_ne_same (E : Ext) (vindex hindex dindex : Nat) (sindex : Option Nat) :
    ∀ (rows : List (List (List Nat))) (view : CrosstabView),
      buildRows E vindex hindex dindex sindex view rows ≠
        .error .crosstabVerticalAndHorizontalColumnsMustNotBeSame := by
  intro rows
  induction rows with
  | nil => intro view hEq; simp [buildRows] at hEq
  | cons r rest ih =>
    intro view hEq
    unfold buildRows at hEq
    cases hr : crosstabRow E vindex hindex dindex sindex view r with
    | error e =>
      simp only [hr] at hEq
      injection hEq with h
      rw [h] at hr
      exact crosstabRow_ne_same E vindex hindex dindex sindex view r hr
    | ok view1 =>
      simp only [hr] at hEq
      exact ih view1 hEq

theorem build_ne_same (view : CrosstabView) (E : Ext) (foldEq : Nat → Nat → Bool)
    (cols : List (List Nat)) (rows : List (List (List Nat))) :
    CrosstabView.build view E foldEq cols rows ≠
      .error .crosstabVerticalAndHorizontalColumnsMustNotBeSame := by
  intro hEq
  unfold CrosstabView.build at hEq
  by_cases h1 : cols.length < 3
  · rw [if_pos h1] at hEq; simp at hEq
  rw [if_neg h1] at hEq
  by_cases h2 : 3 < cols.length ∧ view.d = []
  · rw [if_pos h2] at hEq; simp at hEq
  rw [if_neg h2] at hEq
  cases hv : findIndex foldEq cols view.v 0 with
  | none => simp only [hv] at hEq; simp at hEq
  | some vindex =>
    simp only [hv] at hEq
    cases hh : findIndex foldEq cols view.h 1 with
    | none => simp only [hh] at hEq; simp at hEq
    | some hindex =>
      simp only [hh] at hEq
      cases hd : findIndex foldEq cols view.d (ddefFor view.d vindex hindex) with
      | none => simp only [hd] at hEq; simp at hEq
      | some dindex =>
        simp only [hd] at hEq
        cases hs : resolveSort foldEq cols view.s with
        | error e =>
          simp only [hs] at hEq
          injection hEq with h
          rw [h] at hs
          revert hs
          unfold resolveSort
          by_cases hse : view.s = []
          · rw [if_pos hse]; intro hs; exact absurd hs (by simp)
          · rw [if_neg hse]
            cases hidx : indexOf foldEq cols view.s with
            | none => intro hs; simp at hs
            | some si => intro hs; simp at hs
        | ok sindex =>
          simp only [hs] at hEq
          cases hb : buildRows E vindex hindex dindex sindex
              { view with
                  v := cols.getD vindex []
                  h := cols.getD hindex []
                  d := cols.getD dindex [] } rows with
          | error e =>
            simp only [hb] at hEq
            injection hEq with h
            rw [h] at hb
            exact buildRows_ne_same E vindex hindex dindex sindex rows _ hb
          | ok view2 =>
            simp only [hb] at hEq
            exact Except.noConfusion hEq

set_option maxHeartbeats 800000 in
/-- C7 (amended): `NewCrosstabView` fails with the
vertical-and-horizontal-columns-must-not-be-same error exactly when the
vertical and horizontal column parameters are both nonempty and equal as
strings before resolution; in every other case — including a positional
default landing on the very column the other parameter names — this
error is never raised. -/
theorem NewCrosstabView_same_iff (E : Ext) (foldEq : Nat → Nat → Bool)
    (cols : List (List Nat)) (rows : List (List (List Nat))) (v h d s : List Nat) :
    NewCrosstabView E foldEq cols rows v h d s =
        .error .crosstabVerticalAndHorizontalColumnsMustNotBeSame ↔
      (v ≠ [] ∧ h ≠ [] ∧ v = h) := by
  constructor
  · intro hEq
    by_contra hc
    unfold NewCrosstabView at hEq
    rw [if_neg hc] at hEq
    exact build_ne_same _ _ _ _ _ hEq
  · intro hc
    unfold NewCrosstabView
    rw [if_pos hc]

/-- Witness for the amended C7 at concrete inputs: equal nonempty
parameters `a`, `a` raise the error. -/
theorem NewCrosstabView_same_iff_witness :
    NewCrosstabView extASCII (fun a b => a == b) [[97], [98], [99]] [] [97] [97] [] [] =
      .error .crosstabVerticalAndHorizontalColumnsMustNotBeSame :=
  (NewCrosstabView_same_iff extASCII (fun a b => a == b)
      [[97], [98], [99]] [] [97] [97] [] []).mpr (by decide)

/-- The pivot cell stored under a (vertical, horizontal) key pair. -/
def cellOf (view : CrosstabView) (vk hk : List Nat) : Option (List Nat) :=
  alookup ((alookup view.vals vk).getD []) hk

/-- The raw-formatted (vertical, horizontal) key pair of a source row. -/
def pairOf (E : Ext) (vindex hindex : Nat) (row : List (List Nat)) : List Nat × List Nat :=
  ((rawValue E (row.getD vindex [])).Buf, (rawValue E (row.getD hindex [])).Buf)

/-- The sort cell passed to `add` for a source row. -/
def sortArg (E : Ext) (sindex : Option Nat) (row : List (List Nat)) : Option Value :=
  sindex.map (fun si => rawValue E (row.getD si []))

theorem alookup_nil {α β : Type} [DecidableEq α] (k : α) :
    alookup ([] : List (α × β)) k = none := rfl

theorem alookup_cons {α β : Type} [DecidableEq α] (p : α × β) (rest : List (α × β)) (k : α) :
    alookup (p :: rest) k = if p.1 = k then some p.2 else alookup rest k := rfl

theorem aupdate_cons {α β : Type} [DecidableEq α] (p : α × β) (rest : List (α × β))
    (k : α) (b : β) :
    aupdate (p :: rest) k b = (if p.1 = k then (k, b) else p) :: aupdate rest k b := rfl

theorem alookup_append_some {α β : Type} [DecidableEq α] (m m' : List (α × β)) (k : α) (b : β)
    (h : alookup m k = some b) : alookup (m ++ m') k = some b := by
  induction m with
  | nil => exact Option.noConfusion h
  | cons p rest ih =>
    rw [alookup_cons] at h
    rw [List.cons_append, alookup_cons]
    by_cases hk : p.1 = k
    · rw [if_pos hk] at h ⊢; exact h
    · rw [if_neg hk] at h ⊢; exact ih h

theorem alookup_append_none {α β : Type} [DecidableEq α] (m m' : List (α × β)) (k : α)
    (h : alookup m k = none) : alookup (m ++ m') k = alookup m' k := by
  induction m with
  | nil => rfl
  | cons p rest ih =>
    rw [alookup_cons] at h
    rw [List.cons_append, alookup_cons]
    by_cases hk : p.1 = k
    · rw [if_pos hk] at h; exact Option.noConfusion h
    · rw [if_neg hk] at h ⊢; exact ih h

theorem alookup_singleton_self {α β : Type} [DecidableEq α] (k : α) (b : β) :
    alookup [(k, b)] k = some b := by
  rw [alookup_cons, if_pos rfl]

theorem alookup_singleton_ne {α β : Type} [DecidableEq α] (k k' : α) (b : β) (h : k ≠ k') :
    alookup [(k, b)] k' = none := by
  rw [alookup_cons, if_neg h]
  rfl

theorem alookup_aupdate_self {α β : Type} [DecidableEq α] (m : List (α × β)) (k : α)
    (b b' : β) (h : alookup m k = some b) : alookup (aupdate m k b') k = some b' := by
  induction m with
  | nil => exact Option.noConfusion h
  | cons p rest ih =>
    rw [alookup_cons] at h
    rw [aupdate_cons, alookup_cons]
    by_cases hk : p.1 = k
    · rw [if_pos hk]
      rw [if_pos rfl]
    · rw [if_neg hk] at h
      rw [if_neg hk, if_neg hk]
      exact ih h

theorem alookup_aupdate_ne {α β : Type} [DecidableEq α] (m : List (α × β)) (k k' : α)
    (b' : β) (h : k' ≠ k) : alookup (aupdate m k b') k' = alookup m k' := by
  induction m with
  | nil => rfl
  | cons p rest ih =>
    rw [aupdate_cons, alookup_cons, alookup_cons]
    by_cases hk : p.1 = k
    · rw [if_pos hk]
      rw [if_neg (fun he => h ((hk.symm.trans he).symm)),
        if_neg (fun he : (k, b').1 = k' => h he.symm)]
      exact ih
    · rw [if_neg hk]
      by_cases hk' : p.1 = k'
      · rw [if_pos hk', if_pos hk']
      · rw [if_neg hk', if_neg hk']
        exact ih

theorem alookup_snoc_ne {α β : Type} [DecidableEq α] (m : List (α × β)) (k k' : α) (b : β)
    (h : k ≠ k') : alookup (m ++ [(k, b)]) k' = alookup m k' := by
  cases hm : alookup m k' with
  | some w => exact alookup_append_some _ _ _ _ hm
  | none => rw [alookup_append_none _ _ _ hm, alookup_singleton_ne _ _ _ h]

/-- A successful `add` stores the data value at the row's key pair,
leaves every other pivot cell unchanged, and appends the first-seen
keys. -/
theorem add_ok_props (view : CrosstabView) (d : List Nat) (v h : Value) (s : Option Value)
    (sval : Int) (hs : sortVal s = some sval)
    (hcell : cellOf view v.Buf h.Buf = none) :
    ∃ view', CrosstabView.add view d v h s = .ok view' ∧
      cellOf view' v.Buf h.Buf = some d ∧
      (∀ vk hk, ¬(vk = v.Buf ∧ hk = h.Buf) → cellOf view' vk hk = cellOf view vk hk) ∧
      view'.vkeys = vkeyAppend view.vkeys v.Buf ∧
      view'.hkeys = hkeyAppend view.hkeys ⟨h.Buf, sval⟩ ∧
      view'.v = view.v ∧ view'.h = view.h ∧ view'.d = view.d ∧ view'.s = view.s := by
  unfold CrosstabView.add
  rw [hs]
  dsimp only
  cases hv : alookup view.vals v.Buf with
  | none =>
    refine ⟨_, rfl, ?_, ?_, rfl, rfl, rfl, rfl, rfl, rfl⟩
    · show alookup ((alookup (view.vals ++ [(v.Buf, [(h.Buf, d)])]) v.Buf).getD []) h.Buf
        = some d
      rw [alookup_append_none _ _ _ hv, alookup_singleton_self]
      simp only [Option.getD_some]
      exact alookup_singleton_self h.Buf d
    · intro vk hk hne
      show alookup ((alookup (view.vals ++ [(v.Buf, [(h.Buf, d)])]) vk).getD []) hk
        = cellOf view vk hk
      by_cases hvk : vk = v.Buf
      · subst hvk
        rw [alookup_append_none _ _ _ hv, alookup_singleton_self]
        unfold cellOf
        rw [hv]
        simp only [Option.getD_some, Option.getD_none]
        rw [alookup_singleton_ne _ _ _ (fun he => hne ⟨rfl, he.symm⟩)]
        rfl
      · rw [alookup_snoc_ne _ _ _ _ (fun he => hvk he.symm)]
        rfl
  | some inner =>
    dsimp only
    cases hh : alookup inner h.Buf with
    | some z =>
      exfalso
      unfold cellOf at hcell
      rw [hv] at hcell
      simp only [Option.getD_some] at hcell
      rw [hh] at hcell
      exact Option.noConfusion hcell
    | none =>
      dsimp only
      refine ⟨_, rfl, ?_, ?_, rfl, rfl, rfl, rfl, rfl, rfl⟩
      · show alookup
            ((alookup (aupdate view.vals v.Buf (inner ++ [(h.Buf, d)])) v.Buf).getD []) h.Buf
          = some d
        rw [alookup_aupdate_self _ _ _ _ hv]
        simp only [Option.getD_some]
        rw [alookup_append_none _ _ _ hh]
        exact alookup_singleton_self h.Buf d
      · intro vk hk hne
        show alookup
            ((alookup (aupdate view.vals v.Buf (inner ++ [(h.Buf, d)])) vk).getD []) hk
          = cellOf view vk hk
        by_cases hvk : vk = v.Buf
        · subst hvk
          rw [alookup_aupdate_self _ _ _ _ hv]
          unfold cellOf
          rw [hv]
          simp only [Option.getD_some]
          exact alookup_snoc_ne _ _ _ _ (fun he => hne ⟨rfl, he.symm⟩)
        · rw [alookup_aupdate_ne _ _ _ _ hvk]
          rfl

/-- `add` fails with the duplicate error when the key pair is already
stored. -/
theorem add_dup (view : CrosstabView) (d : List Nat) (v h : Value) (s : Option Value)
    (sval : Int) (hs : sortVal s = some sval) (z : List Nat)
    (hcell : cellOf view v.Buf h.Buf = some z) :
    CrosstabView.add view d v h s = .error .crosstabDuplicateVerticalAndHorizontalValue := by
  unfold CrosstabView.add
  rw [hs]
  dsimp only
  cases hv : alookup view.vals v.Buf with
  | none =>
    exfalso
    unfold cellOf at hcell
    rw [hv] at hcell
    simp only [Option.getD_none, alookup_nil] at hcell
    exact Option.noConfusion hcell
  | some inner =>
    dsimp only
    unfold cellOf at hcell
    rw [hv] at hcell
    simp only [Option.getD_some] at hcell
    rw [hcell]

/-- Inversion of a successful `add`. -/
theorem add_ok_inv (view view' : CrosstabView) (d : List Nat) (v h : Value)
    (s : Option Value) (hadd : CrosstabView.add view d v h s = .ok view') :
    ∃ sval, sortVal s = some sval ∧ cellOf view v.Buf h.Buf = none ∧
      cellOf view' v.Buf h.Buf = some d ∧
      (∀ vk hk, ¬(vk = v.Buf ∧ hk = h.Buf) → cellOf view' vk hk = cellOf view vk hk) ∧
      view'.vkeys = vkeyAppend view.vkeys v.Buf ∧
      view'.hkeys = hkeyAppend view.hkeys ⟨h.Buf, sval⟩ ∧
      view'.v = view.v ∧ view'.h = view.h ∧ view'.d = view.d ∧ view'.s = view.s := by
  cases hs : sortVal s with
  | none =>
    exfalso
    unfold CrosstabView.add at hadd
    simp only [hs] at hadd
    exact Except.noConfusion hadd
  | some sval =>
    refine ⟨sval, rfl, ?_⟩
    cases hcell : cellOf view v.Buf h.Buf with
    | some z =>
      exfalso
      rw [add_dup view d v h s sval hs z hcell] at hadd
      exact Except.noConfusion hadd
    | none =>
      obtain ⟨view'', heq, hprops⟩ := add_ok_props view d v h s sval hs hcell
      rw [heq] at hadd
      injection hadd with hview
      subst hview
      exact ⟨rfl, hprops⟩

/-- Inversion of a failed `add`. -/
theorem add_err_inv (view : CrosstabView) (d : List Nat) (v h : Value) (s : Option Value)
    (e : GoError) (hadd : CrosstabView.add view d v h s = .error e) :
    (e = .crosstabHorizontalSortColumnIsNotANumber ∧ sortVal s = none) ∨
    (e = .crosstabDuplicateVerticalAndHorizontalValue ∧
      cellOf view v.Buf h.Buf ≠ none) := by
  cases hs : sortVal s with
  | none =>
    unfold CrosstabView.add at hadd
    simp only [hs] at hadd
    injection hadd with he
    exact Or.inl ⟨he.symm, rfl⟩
  | some sval =>
    unfold CrosstabView.add at hadd
    simp only [hs] at hadd
    cases hv : alookup view.vals v.Buf with
    | none =>
      simp only [hv] at hadd
      exact Except.noConfusion hadd
    | some inner =>
      simp only [hv] at hadd
      cases hh : alookup inner h.Buf with
      | none =>
        simp only [hh] at hadd
        exact Except.noConfusion hadd
      | some z =>
        simp only [hh] at hadd
        injection hadd with he
        refine Or.inr ⟨he.symm, ?_⟩
        unfold cellOf
        rw [hv]
        simp only [Option.getD_some]
        rw [hh]
        simp

/-- Inversion of a successful run of the row loop: the processed key
pairs were all fresh and pairwise distinct, each row's data value is
stored at its pair, and every other pivot cell is unchanged. -/
theorem buildRows_ok_inv (E : Ext) (vi hi di : Nat) (si : Option Nat) :
    ∀ (rows : List (List (List Nat))) (view view' : CrosstabView),
      buildRows E vi hi di si view rows = .ok view' →
      (∀ row ∈ rows, cellOf view (pairOf E vi hi row).1 (pairOf E vi hi row).2 = none) ∧
      (rows.map (pairOf E vi hi)).Nodup ∧
      (∀ row ∈ rows,
        cellOf view' (pairOf E vi hi row).1 (pairOf E vi hi row).2 = some (row.getD di [])) ∧
      (∀ vk hk, (∀ row ∈ rows, pairOf E vi hi row ≠ (vk, hk)) →
        cellOf view' vk hk = cellOf view vk hk) := by
  intro rows
  induction rows with
  | nil =>
    intro view view' h
    unfold buildRows at h
    injection h with hv
    subst hv
    exact ⟨by simp, by simp, by simp, fun vk hk _ => rfl⟩
  | cons r rest ih =>
    intro view view' h
    unfold buildRows at h
    cases hr : crosstabRow E vi hi di si view r with
    | error e =>
      simp only [hr] at h
      exact Except.noConfusion h
    | ok view1 =>
      simp only [hr] at h
      unfold crosstabRow at hr
      obtain ⟨sval, hs, hcell0, hcell1, hpres, hvkeys, hhkeys, hveq, hheq, hdeq, hseq⟩ :=
        add_ok_inv _ _ _ _ _ _ hr
      obtain ⟨hnone1, hnd1, hstore1, hpres1⟩ := ih view1 view' h
      have hfresh : ∀ row ∈ rest, pairOf E vi hi row ≠ pairOf E vi hi r := by
        intro row hrow heq
        have h1 := hnone1 row hrow
        rw [heq] at h1
        exact Option.noConfusion (hcell1.symm.trans h1)
      refine ⟨?_, ?_, ?_, ?_⟩
      · intro row hrow
        rcases List.mem_cons.mp hrow with hre | hrest
        · subst hre
          exact hcell0
        · by_cases hpp : pairOf E vi hi row = pairOf E vi hi r
          · rw [hpp]
            exact hcell0
          · rw [← hpres _ _ (fun hc => hpp (Prod.ext_iff.mpr ⟨hc.1, hc.2⟩))]
            exact hnone1 row hrest
      · simp only [List.map_cons, List.nodup_cons]
        refine ⟨?_, hnd1⟩
        intro hmem
        obtain ⟨row, hrow, heq⟩ := List.mem_map.mp hmem
        exact hfresh row hrow heq
      · intro row hrow
        rcases List.mem_cons.mp hrow with hre | hrest
        · subst hre
          exact (hpres1 (pairOf E vi hi row).1 (pairOf E vi hi row).2
            (fun r2 hr2 => hfresh r2 hr2)).trans hcell1
        · exact hstore1 row hrest
      · intro vk hk hall
        have h1 := hpres1 vk hk (fun row hrow => hall row (List.mem_cons_of_mem _ hrow))
        have h2 := hpres vk hk (fun hc =>
          hall r (List.mem_cons_self r rest) (Prod.ext_iff.mpr ⟨hc.1.symm, hc.2.symm⟩))
        exact h1.trans h2

/-- The row loop only fails with the sort-parse or the duplicate
error. -/
theorem buildRows_err_inv (E : Ext) (vi hi di : Nat) (si : Option Nat) :
    ∀ (rows : List (List (List Nat))) (view : CrosstabView) (e : GoError),
      buildRows E vi hi di si view rows = .error e →
      (e = .crosstabHorizontalSortColumnIsNotANumber ∧
        ∃ row ∈ rows, sortVal (sortArg E si row) = none) ∨
      e = .crosstabDuplicateVerticalAndHorizontalValue := by
  intro rows
  induction rows with
  | nil =>
    intro view e h
    exact Except.noConfusion h
  | cons r rest ih =>
    intro view e h
    unfold buildRows at h
    cases hr : crosstabRow E vi hi di si view r with
    | error e1 =>
      simp only [hr] at h
      injection h with he
      subst he
      unfold crosstabRow at hr
      rcases add_err_inv _ _ _ _ _ _ hr with ⟨he1, hsv⟩ | ⟨he1, _⟩
      · exact Or.inl ⟨he1, r, List.mem_cons_self r rest, hsv⟩
      · exact Or.inr he1
    | ok view1 =>
      simp only [hr] at h
      rcases ih view1 e h with ⟨he1, row, hrow, hsv⟩ | he1
      · exact Or.inl ⟨he1, row, List.mem_cons_of_mem _ hrow, hsv⟩
      · exact Or.inr he1

/-- The row loop succeeds when every sort cell parses, the key pairs are
pairwise distinct and none of them is already stored. -/
theorem buildRows_ok_exists (E : Ext) (vi hi di : Nat) (si : Option Nat) :
    ∀ (rows : List (List (List Nat))) (view : CrosstabView),
      (∀ row ∈ rows, sortVal (sortArg E si row) ≠ none) →
      (rows.map (pairOf E vi hi)).Nodup →
      (∀ row ∈ rows, cellOf view (pairOf E vi hi row).1 (pairOf E vi hi row).2 = none) →
      ∃ view', buildRows E vi hi di si view rows = .ok view' := by
  intro rows
  induction rows with
  | nil => exact fun view _ _ _ => ⟨view, rfl⟩
  | cons r rest ih =>
    intro view hparse hnd hnone
    have hs : ∃ sval, sortVal (sortArg E si r) = some sval := by
      cases hsv : sortVal (sortArg E si r) with
      | none => exact absurd hsv (hparse r (List.mem_cons_self r rest))
      | some sval => exact ⟨sval, rfl⟩
    obtain ⟨sval, hsv⟩ := hs
    obtain ⟨view1, heq, hcell1, hpres, _⟩ :=
      add_ok_props view (r.getD di []) (rawValue E (r.getD vi []))
        (rawValue E (r.getD hi [])) (sortArg E si r) sval hsv
        (hnone r (List.mem_cons_self r rest))
    simp only [List.map_cons, List.nodup_cons] at hnd
    have hnone1 : ∀ row ∈ rest,
        cellOf view1 (pairOf E vi hi row).1 (pairOf E vi hi row).2 = none := by
      intro row hrow
      rw [hpres _ _ (fun hc => hnd.1 (List.mem_map.mpr ⟨row, hrow,
        Prod.ext_iff.mpr ⟨hc.1, hc.2⟩⟩))]
      exact hnone row (List.mem_cons_of_mem _ hrow)
    obtain ⟨view', hrest⟩ := ih view1
      (fun row hrow => hparse row (List.mem_cons_of_mem _ hrow)) hnd.2 hnone1
    refine ⟨view', ?_⟩
    unfold buildRows
    have hr : crosstabRow E vi hi di si view r = .ok view1 := heq
    simp only [hr]
    exact hrest

/-- The row loop fails with the duplicate error when every sort cell
parses but the key pairs are not pairwise distinct. -/
theorem buildRows_dup (E : Ext) (vi hi di : Nat) (si : Option Nat)
    (rows : List (List (List Nat))) (view : CrosstabView)
    (hparse : ∀ row ∈ rows, sortVal (sortArg E si row) ≠ none)
    (hdup : ¬ (rows.map (pairOf E vi hi)).Nodup) :
    buildRows E vi hi di si view rows =
      .error .crosstabDuplicateVerticalAndHorizontalValue := by
  cases hb : buildRows E vi hi di si view rows with
  | ok view' => exact absurd (buildRows_ok_inv E vi hi di si rows view view' hb).2.1 hdup
  | error e =>
    rcases buildRows_err_inv E vi hi di si rows view e hb with ⟨_, row, hrow, hsv⟩ | he
    · exact absurd hsv (hparse row hrow)
    · rw [he]

/-- The initial state of the row loop reached by a `NewCrosstabView`
whose column-count checks pass and whose four column specifiers
resolve. -/
def initView (cols : List (List Nat)) (vindex hindex dindex : Nat) (s : List Nat) :
    CrosstabView :=
  { v := cols.getD vindex []
    h := cols.getD hindex []
    d := cols.getD dindex []
    s := s
    vkeys := []
    hkeys := []
    vals := [] }

/-- `NewCrosstabView` reduces to the row loop once the pre-checks pass
and the column specifiers resolve. -/
theorem NewCrosstabView_eq_buildRows (E : Ext) (foldEq : Nat → Nat → Bool)
    (cols : List (List Nat)) (rows : List (List (List Nat))) (v h d s : List Nat)
    (vindex hindex dindex : Nat) (sindex : Option Nat)
    (hnotsame : ¬(v ≠ [] ∧ h ≠ [] ∧ v = h))
    (hc3 : ¬ cols.length < 3)
    (hdc : ¬ (3 < cols.length ∧ d = []))
    (hv : findIndex foldEq cols v 0 = some vindex)
    (hh : findIndex foldEq cols h 1 = some hindex)
    (hd : findIndex foldEq cols d (ddefFor d vindex hindex) = some dindex)
    (hs : resolveSort foldEq cols s = .ok sindex) :
    NewCrosstabView E foldEq cols rows v h d s =
      match buildRows E vindex hindex dindex sindex
          (initView cols vindex hindex dindex s) rows with
      | .error e => .error e
      | .ok view => .ok (view, sindex.isSome) := by
  unfold NewCrosstabView
  rw [if_neg hnotsame]
  unfold CrosstabView.build
  dsimp only
  rw [if_neg hc3, if_neg hdc]
  simp only [hv, hh, hd, hs]
  rfl

set_option maxHeartbeats 1000000 in
/-- C4: once the crosstab's pre-checks pass, its four column specifiers
resolve to `vindex`, `hindex`, `dindex` and `sindex`, and every sort
cell parses, construction fails with the
duplicate-vertical-and-horizontal-value error exactly when some
raw-formatted (vertical, horizontal) key pair occurs in two different
source rows; with pairwise-distinct pairs it succeeds, every source
row's data value is stored at that row's pair, and every stored pivot
cell is the data value of a source row with that pair (so each row
occupies exactly one pivot cell and nothing is overwritten). -/
theorem crosstab_duplicate_check (E : Ext) (foldEq : Nat → Nat → Bool)
    (cols : List (List Nat)) (rows : List (List (List Nat))) (v h d s : List Nat)
    (vindex hindex dindex : Nat) (sindex : Option Nat)
    (hnotsame : ¬(v ≠ [] ∧ h ≠ [] ∧ v = h))
    (hc3 : ¬ cols.length < 3)
    (hdc : ¬ (3 < cols.length ∧ d = []))
    (hv : findIndex foldEq cols v 0 = some vindex)
    (hh : findIndex foldEq cols h 1 = some hindex)
    (hd : findIndex foldEq cols d (ddefFor d vindex hindex) = some dindex)
    (hs : resolveSort foldEq cols s = .ok sindex)
    (hparse : ∀ row ∈ rows, sortVal (sortArg E sindex row) ≠ none) :
    (¬ (rows.map (pairOf E vindex hindex)).Nodup →
      NewCrosstabView E foldEq cols rows v h d s =
        .error .crosstabDuplicateVerticalAndHorizontalValue) ∧
    ((rows.map (pairOf E vindex hindex)).Nodup →
      ∃ view', NewCrosstabView E foldEq cols rows v h d s = .ok (view', sindex.isSome) ∧
        (∀ row ∈ rows, cellOf view' (pairOf E vindex hindex row).1
            (pairOf E vindex hindex row).2 = some (row.getD dindex [])) ∧
        (∀ vk hk z, cellOf view' vk hk = some z →
          ∃ row ∈ rows, pairOf E vindex hindex row = (vk, hk) ∧ row.getD dindex [] = z)) := by
  have hbridge := NewCrosstabView_eq_buildRows E foldEq cols rows v h d s
    vindex hindex dindex sindex hnotsame hc3 hdc hv hh hd hs
  constructor
  · intro hdup
    rw [hbridge, buildRows_dup E vindex hindex dindex sindex rows
      (initView cols vindex hindex dindex s) hparse hdup]
  · intro hnd
    have hnone : ∀ row ∈ rows, cellOf (initView cols vindex hindex dindex s)
        (pairOf E vindex hindex row).1 (pairOf E vindex hindex row).2 = none :=
      fun row _ => rfl
    obtain ⟨view', hok⟩ := buildRows_ok_exists E vindex hindex dindex sindex rows
      (initView cols vindex hindex dindex s) hparse hnd hnone
    obtain ⟨_, _, hstore, hpres⟩ :=
      buildRows_ok_inv E vindex hindex dindex sindex rows _ view' hok
    refine ⟨view', ?_, hstore, ?_⟩
    · rw [hbridge, hok]
    · intro vk hk z hz
      by_cases hex : ∃ row ∈ rows, pairOf E vindex hindex row = (vk, hk)
      · obtain ⟨row, hrow, hpair⟩ := hex
        refine ⟨row, hrow, hpair, ?_⟩
        have hsr := hstore row hrow
        rw [congrArg Prod.fst hpair, congrArg Prod.snd hpair] at hsr
        exact (Option.some.inj (hz.symm.trans hsr)).symm
      · exfalso
        have := hpres vk hk (fun row hrow hpair => hex ⟨row, hrow, hpair⟩)
        rw [hz] at this
        exact Option.noConfusion this

/-- Witness for C4 at a concrete duplicated input: the pair
`("v1","h1")` occurs in two rows and construction fails with the
duplicate error. -/
theorem crosstab_duplicate_check_witness :
    NewCrosstabView extASCII (fun a b => a == b) [[118], [104], [99]]
        [[[118, 49], [104, 49], [120]], [[118, 49], [104, 49], [121]]] [] [] [] [] =
      .error .crosstabDuplicateVerticalAndHorizontalValue :=
  (crosstab_duplicate_check extASCII (fun a b => a == b) [[118], [104], [99]]
      [[[118, 49], [104, 49], [120]], [[118, 49], [104, 49], [121]]] [] [] [] []
      0 1 2 none (by decide) (by decide) (by decide) (by decide) (by decide) (by decide)
      rfl (by decide)).1 (by decide)

/-- The `hkey` contributed by a source row: its raw-formatted horizontal
cell with its parsed sort value (0 without a sort column). -/
def keyOf (E : Ext) (hindex : Nat) (sindex : Option Nat) (row : List (List Nat)) : hkey :=
  ⟨(rawValue E (row.getD hindex [])).Buf, (sortVal (sortArg E sindex row)).getD 0⟩

/-- A successful run of the row loop accumulates `hkeys` by folding
`hkeyAppend` over the rows' keys. -/
theorem buildRows_hkeys (E : Ext) (vi hi di : Nat) (si : Option Nat) :
    ∀ (rows : List (List (List Nat))) (view view' : CrosstabView),
      buildRows E vi hi di si view rows = .ok view' →
      view'.hkeys = (rows.map (keyOf E hi si)).foldl hkeyAppend view.hkeys := by
  intro rows
  induction rows with
  | nil =>
    intro view view' h
    injection h with hv
    subst hv
    rfl
  | cons r rest ih =>
    intro view view' h
    unfold buildRows at h
    cases hr : crosstabRow E vi hi di si view r with
    | error e =>
      simp only [hr] at h
      exact Except.noConfusion h
    | ok view1 =>
      simp only [hr] at h
      unfold crosstabRow at hr
      obtain ⟨sval, hs, _, _, _, _, hhkeys, _⟩ := add_ok_inv _ _ _ _ _ _ hr
      have hkey_eq : keyOf E hi si r = ⟨(rawValue E (r.getD hi [])).Buf, sval⟩ := by
        unfold keyOf sortArg
        rw [hs]
        rfl
      rw [ih view1 view' h, hhkeys, ← hkey_eq, List.map_cons, List.foldl_cons]

/-- The first-seen structure of a `hkeyAppend` fold: the appended block
is a subsequence of the key stream holding, for each horizontal value
not already in the accumulator, exactly its first occurrence. -/
theorem hkeyAppend_fold (ks : List hkey) : ∀ acc : List hkey,
    ∃ extra, ks.foldl hkeyAppend acc = acc ++ extra ∧
      extra.Sublist ks ∧
      (∀ e ∈ extra, ∀ a ∈ acc, a.v ≠ e.v) ∧
      (extra.map hkey.v).Nodup ∧
      (∀ k ∈ ks, (∃ a ∈ acc, a.v = k.v) ∨ (∃ e ∈ extra, e.v = k.v)) ∧
      (∀ e ∈ extra, ∃ pre post, ks = pre ++ e :: post ∧ ∀ p ∈ pre, p.v ≠ e.v) := by
  induction ks with
  | nil =>
    intro acc
    exact ⟨[], (List.append_nil acc).symm, List.nil_sublist _, by simp, by simp, by simp,
      by simp⟩
  | cons k ks ih =>
    intro acc
    rw [List.foldl_cons]
    by_cases hmem : acc.any (fun z => z.v == k.v)
    · have happ : hkeyAppend acc k = acc := by
        unfold hkeyAppend
        rw [if_pos hmem]
      rw [happ]
      simp only [List.any_eq_true, beq_iff_eq] at hmem
      obtain ⟨a0, ha0, hav⟩ := hmem
      obtain ⟨extra, heq, hsub, hacc, hnd, hcov, hfirst⟩ := ih acc
      refine ⟨extra, heq, hsub.cons k, hacc, hnd, ?_, ?_⟩
      · intro k' hk'
        rcases List.mem_cons.mp hk' with hke | hks
        · subst hke
          exact Or.inl ⟨a0, ha0, hav⟩
        · exact hcov k' hks
      · intro e he
        obtain ⟨pre, post, heqks, hpre⟩ := hfirst e he
        refine ⟨k :: pre, post, by rw [List.cons_append, heqks], ?_⟩
        intro p hp
        rcases List.mem_cons.mp hp with hpk | hpp
        · subst hpk
          intro hpe
          exact hacc e he a0 ha0 (hav.trans hpe)
        · exact hpre p hpp
    · have happ : hkeyAppend acc k = acc ++ [k] := by
        unfold hkeyAppend
        rw [if_neg hmem]
      rw [happ]
      simp only [List.any_eq_true, beq_iff_eq, not_exists] at hmem
      push_neg at hmem
      obtain ⟨extra, heq, hsub, hacc, hnd, hcov, hfirst⟩ := ih (acc ++ [k])
      refine ⟨k :: extra, ?_, hsub.cons₂ k, ?_, ?_, ?_, ?_⟩
      · rw [heq, List.append_assoc, List.singleton_append]
      · intro e he a ha
        rcases List.mem_cons.mp he with hek | hee
        · subst hek
          exact hmem a ha
        · exact hacc e hee a (List.mem_append_left _ ha)
      · rw [List.map_cons, List.nodup_cons]
        refine ⟨?_, hnd⟩
        intro hkin
        obtain ⟨e, hee, hev⟩ := List.mem_map.mp hkin
        exact hacc e hee k (List.mem_append_right _ (List.mem_cons_self k [])) hev.symm
      · intro k' hk'
        rcases List.mem_cons.mp hk' with hke | hks
        · subst hke
          exact Or.inr ⟨k', List.mem_cons_self _ _, rfl⟩
        · rcases hcov k' hks with ⟨a, ha, hav⟩ | ⟨e, hee, hev⟩
          · rcases List.mem_append.mp ha with hal | har
            · exact Or.inl ⟨a, hal, hav⟩
            · have : a = k := List.mem_singleton.mp har
              subst this
              exact Or.inr ⟨a, List.mem_cons_self _ _, hav⟩
          · exact Or.inr ⟨e, List.mem_cons_of_mem _ hee, hev⟩
      · intro e he
        rcases List.mem_cons.mp he with hek | hee
        · subst hek
          exact ⟨[], ks, rfl, by simp⟩
        · obtain ⟨pre, post, heqks, hpre⟩ := hfirst e hee
          refine ⟨k :: pre, post, by rw [List.cons_append, heqks], ?_⟩
          intro p hp
          rcases List.mem_cons.mp hp with hpk | hpp
          · subst hpk
            exact fun hpe =>
              hacc e hee p (List.mem_append_right _ (List.mem_cons_self p [])) hpe
          · exact hpre p hpp

instance (l l' : List hkey) : Decidable (sortSlicePost l l') := by
  unfold sortSlicePost
  infer_instance

/-- Counterexample to C5: the sort at the end of `build` is Go's
`sort.Slice`, whose contract guarantees only a sorted permutation, not
stability.  For the tied input whose first-seen horizontal keys are
`[("b",1), ("a",1)]`, the order `[("a",1), ("b",1)]` — which does not
keep the first-seen relative order of the tie — satisfies the sort
contract just as well as the first-seen order, so the claimed stable
outcome is not guaranteed by the code. -/
instance {ε α : Type} [DecidableEq ε] [DecidableEq α] : DecidableEq (Except ε α)
  | .error e, .error f =>
    if h : e = f then .isTrue (by rw [h]) else .isFalse (fun he => h (Except.error.inj he))
  | .error _, .ok _ => .isFalse Except.noConfusion
  | .ok _, .error _ => .isFalse Except.noConfusion
  | .ok a, .ok b =>
    if h : a = b then .isTrue (by rw [h]) else .isFalse (fun he => h (Except.ok.inj he))

theorem crosstab_sort_cex :
    (okOf (NewCrosstabView extASCII (fun a b => a == b) [[118], [104], [99]]
        [[[114, 49], [98], [49]], [[114, 50], [97], [49]]] [] [] [] [99])).map
          (fun p => (p.1.hkeys, p.2)) =
        some ([⟨[98], 1⟩, ⟨[97], 1⟩], true) ∧
      sortSlicePost [⟨[98], 1⟩, ⟨[97], 1⟩] [⟨[97], 1⟩, ⟨[98], 1⟩] ∧
      sortSlicePost [⟨[98], 1⟩, ⟨[97], 1⟩] [⟨[98], 1⟩, ⟨[97], 1⟩] ∧
      ([⟨[97], 1⟩, ⟨[98], 1⟩] : List hkey) ≠ [⟨[98], 1⟩, ⟨[97], 1⟩] := by
  refine ⟨by decide, ?_, ?_, by decide⟩
  · exact ⟨by decide, by decide⟩
  · exact ⟨by decide, by decide⟩

/-- C5 (amended): when a sort column resolves and the row loop of
`build` succeeds, the accumulated `hkeys` are exactly the distinct
horizontal keys in first-seen order, each carrying the parsed integer
sort value of its first occurrence, and every final order permitted by
the `sort.Slice` contract is a permutation of them that ascends by sort
value; the relative order of keys with equal sort values is not
guaranteed. -/
theorem crosstab_sort_order (E : Ext) (vi hi di si : Nat)
    (rows : List (List (List Nat))) (view0 view' : CrosstabView) (final : List hkey)
    (h0 : view0.hkeys = [])
    (hok : buildRows E vi hi di (some si) view0 rows = .ok view')
    (hsorted : sortSlicePost view'.hkeys final) :
    view'.hkeys.Sublist (rows.map (keyOf E hi (some si))) ∧
    (view'.hkeys.map hkey.v).Nodup ∧
    (∀ k ∈ rows.map (keyOf E hi (some si)), ∃ e ∈ view'.hkeys, e.v = k.v) ∧
    (∀ e ∈ view'.hkeys, ∃ pre post,
      rows.map (keyOf E hi (some si)) = pre ++ e :: post ∧ ∀ p ∈ pre, p.v ≠ e.v) ∧
    final.Perm view'.hkeys ∧ final.Pairwise (fun a b => a.s ≤ b.s) := by
  have hk := buildRows_hkeys E vi hi di (some si) rows view0 view' hok
  rw [h0] at hk
  obtain ⟨extra, heq, hsub, hacc, hnd, hcov, hfirst⟩ :=
    hkeyAppend_fold (rows.map (keyOf E hi (some si))) []
  rw [heq, List.nil_append] at hk
  rw [hk] at hsorted ⊢
  exact ⟨hsub, hnd,
    fun k hkm => (hcov k hkm).resolve_left
      (by rintro ⟨a, ha, _⟩; exact List.not_mem_nil a ha),
    hfirst, hsorted.1.symm, hsorted.2⟩

/-- Witness for the amended C5 at the tied concrete input: the built
keys are `[("b",1), ("a",1)]` (first-seen order, first-seen sort
values), and the tie-swapped final order `[("a",1), ("b",1)]` is a
sorted permutation of them. -/
theorem crosstab_sort_order_witness :
    ([⟨[98], 1⟩, ⟨[97], 1⟩] : List hkey).Sublist
        (([[[114, 49], [98], [49]], [[114, 50], [97], [49]]] :
          List (List (List Nat))).map (keyOf extASCII 1 (some 2))) ∧
      ((([⟨[98], 1⟩, ⟨[97], 1⟩] : List hkey).map hkey.v).Nodup) ∧
      (∀ k ∈ ([[[114, 49], [98], [49]], [[114, 50], [97], [49]]] :
          List (List (List Nat))).map (keyOf extASCII 1 (some 2)),
        ∃ e ∈ ([⟨[98], 1⟩, ⟨[97], 1⟩] : List hkey), e.v = k.v) ∧
      (∀ e ∈ ([⟨[98], 1⟩, ⟨[97], 1⟩] : List hkey), ∃ pre post,
        ([[[114, 49], [98], [49]], [[114, 50], [97], [49]]] :
          List (List (List Nat))).map (keyOf extASCII 1 (some 2)) = pre ++ e :: post ∧
        ∀ p ∈ pre, p.v ≠ e.v) ∧
      ([⟨[97], 1⟩, ⟨[98], 1⟩] : List hkey).Perm [⟨[98], 1⟩, ⟨[97], 1⟩] ∧
      ([⟨[97], 1⟩, ⟨[98], 1⟩] : List hkey).Pairwise (fun a b => a.s ≤ b.s) :=
  crosstab_sort_order extASCII 0 1 2 2
    [[[114, 49], [98], [49]], [[114, 50], [97], [49]]]
    (initView [[118], [104], [99]] 0 1 2 [99])
    { v := [118]
      h := [104]
      d := [99]
      s := [99]
      vkeys := [[114, 49], [114, 50]]
      hkeys := [⟨[98], 1⟩, ⟨[97], 1⟩]
      vals := [([114, 49], [([98], [49])]), ([114, 50], [([97], [49])])] }
    [⟨[97], 1⟩, ⟨[98], 1⟩] rfl (by decide) (by decide)

/-- The index accumulator of the name-scanning loop only shifts its
result. -/
theorem indexOfName_shift (foldEq : Nat → Nat → Bool) (s : List Nat) :
    ∀ (cols : List (List Nat)) (i0 : Nat),
      indexOfName foldEq s cols i0 =
        (indexOfName foldEq s cols 0).map (fun j => i0 + j) := by
  intro cols
  induction cols with
  | nil => intro i0; rfl
  | cons vv rest ih =>
    intro i0
    unfold indexOfName
    by_cases hf : goEqualFold foldEq s (goTrimSpace vv) = true
    · rw [if_pos hf, if_pos hf]
      simp
    · rw [if_neg hf, if_neg hf]
      rw [ih (i0 + 1), ih 1]
      cases ho : indexOfName foldEq s rest 0 with
      | none => rfl
      | some j =>
        simp only [Option.map_some']
        rw [Nat.add_assoc]

/-- The name-scanning loop from base 0 returns exactly the first
fold-equal trimmed column name. -/
theorem indexOfName_some_iff (foldEq : Nat → Nat → Bool) (s : List Nat) :
    ∀ (cols : List (List Nat)) (j : Nat),
      indexOfName foldEq s cols 0 = some j ↔
        j < cols.length ∧
        goEqualFold foldEq s (goTrimSpace (cols.getD j [])) = true ∧
        ∀ j' < j, goEqualFold foldEq s (goTrimSpace (cols.getD j' [])) = false := by
  intro cols
  induction cols with
  | nil =>
    intro j
    constructor
    · intro h
      exact Option.noConfusion h
    · intro ⟨hj, _⟩
      exact absurd hj (by simp)
  | cons vv rest ih =>
    intro j
    unfold indexOfName
    by_cases hf : goEqualFold foldEq s (goTrimSpace vv) = true
    · rw [if_pos hf]
      constructor
      · intro h
        injection h with hj
        subst hj
        exact ⟨by simp, hf, by intro j' hj'; omega⟩
      · intro ⟨hj, hfold, hall⟩
        cases j with
        | zero => rfl
        | succ j0 =>
          exfalso
          have h0 := hall 0 (Nat.succ_pos j0)
          rw [List.getD_cons_zero] at h0
          rw [hf] at h0
          exact Bool.noConfusion h0
    · rw [if_neg hf]
      have hf0 : goEqualFold foldEq s (goTrimSpace vv) = false := by
        cases hbb : goEqualFold foldEq s (goTrimSpace vv) with
        | false => rfl
        | true => exact absurd hbb hf
      rw [indexOfName_shift foldEq s rest 1]
      constructor
      · intro h
        cases ho : indexOfName foldEq s rest 0 with
        | none =>
          rw [ho] at h
          exact Option.noConfusion h
        | some j0 =>
          rw [ho] at h
          simp only [Option.map_some'] at h
          injection h with hj
          subst hj
          obtain ⟨hlen, hfold, hall⟩ := (ih j0).mp ho
          refine ⟨by simp; omega, ?_, ?_⟩
          · rw [show 1 + j0 = j0 + 1 from by omega, List.getD_cons_succ]
            exact hfold
          · intro j' hj'
            cases j' with
            | zero =>
              rw [List.getD_cons_zero]
              exact hf0
            | succ j'' =>
              rw [List.getD_cons_succ]
              exact hall j'' (by omega)
      · intro ⟨hj, hfold, hall⟩
        cases j with
        | zero =>
          exfalso
          rw [List.getD_cons_zero] at hfold
          exact hf hfold
        | succ j0 =>
          have hrest : indexOfName foldEq s rest 0 = some j0 := by
            refine (ih j0).mpr ⟨by simp at hj; omega, ?_, ?_⟩
            · rw [List.getD_cons_succ] at hfold
              exact hfold
            · intro j' hj'
              have := hall (j' + 1) (by omega)
              rw [List.getD_cons_succ] at this
              exact this
          rw [hrest]
          simp only [Option.map_some']
          rw [Nat.add_comm]

/-- C9: a column specifier that, after trimming, parses as an integer
`i` is resolved as a 1-based ordinal — column `i - 1` when
`1 ≤ i ≤ len(cols)`, unresolved (hence the corresponding
column-not-in-result error in `build`) otherwise — while a non-numeric
specifier resolves to the first column whose trimmed name is fold-equal
to the trimmed specifier; an empty specifier takes the positional
default. -/
theorem indexOf_resolution (foldEq : Nat → Nat → Bool) (cols : List (List Nat))
    (s : List Nat) :
    (∀ i : Int, goAtoi (goTrimSpace s) = some i →
      indexOf foldEq cols s =
        if 1 ≤ i ∧ i ≤ (cols.length : Int) then some (i - 1).toNat else none) ∧
    (goAtoi (goTrimSpace s) = none → ∀ j : Nat,
      (indexOf foldEq cols s = some j ↔
        j < cols.length ∧
        goEqualFold foldEq (goTrimSpace s) (goTrimSpace (cols.getD j [])) = true ∧
        ∀ j' < j,
          goEqualFold foldEq (goTrimSpace s) (goTrimSpace (cols.getD j' [])) = false)) ∧
    (s ≠ [] → ∀ i0 : Nat, findIndex foldEq cols s i0 = indexOf foldEq cols s) ∧
    (s = [] → ∀ i0 : Nat, findIndex foldEq cols s i0 =
      if i0 < cols.length then some i0 else none) := by
  refine ⟨?_, ?_, ?_, ?_⟩
  · intro i hi
    unfold indexOf
    simp only [hi]
    by_cases hc : 1 ≤ i ∧ i ≤ (cols.length : Int)
    · rw [if_pos (by omega), if_pos hc]
    · rw [if_neg (by omega), if_neg hc]
  · intro hi j
    unfold indexOf
    simp only [hi]
    exact indexOfName_some_iff foldEq (goTrimSpace s) cols j
  · intro hs i0
    unfold findIndex
    rw [if_neg hs]
  · intro hs i0
    unfold findIndex
    rw [if_pos hs]

/-- Witness for C9: the specifier `" 2 "` selects column 1 of a
2-column result, and `"0"` is out of the 1-based range and resolves to
no column. -/
theorem indexOf_resolution_witness :
    indexOf (fun a b => a == b) [[97], [98]] [32, 50, 32] = some 1 ∧
      indexOf (fun a b => a == b) [[97], [98]] [48] = none :=
  ⟨((indexOf_resolution (fun a b => a == b) [[97], [98]] [32, 50, 32]).1 2
      (by decide)).trans (by decide),
    ((indexOf_resolution (fun a b => a == b) [[97], [98]] [48]).1 0
      (by decide)).trans (by decide)⟩

/-! ## Table encoder (encode.go) -/

/-- The inner cell loop of `TableEncoder.calcWidth` (encode.go) for one
column: the maximum of the previous width `mw0`, the header's `MaxWidth`
at the column's offset, and every buffered cell's `MaxWidth` there
(`nil` cells measured as the encoder's `empty` value). -/
def calcWidthStep (tab : Nat) (vals : List (List (Option Value))) (empty : Value)
    (i offset : Nat) (hd : Value) (mw0 : Nat) : Nat :=
  vals.foldl (fun acc row => max acc (((row.getD i none).getD empty).MaxWidth offset tab))
    (max mw0 (hd.MaxWidth offset tab))

/-- The column walk of `TableEncoder.calcWidth` (encode.go): offsets
accumulate the middle-separator width before every column but the
first, each column stores its offset and new maximum width, and the
offset then advances by that width, plus one when the row style has a
wrapping indicator and the border is nonzero.  Returns the
(offset, maxWidth) pair per column. -/
def calcWidthAux (tab midw : Nat) (hasWrapping : Bool) (border : Nat)
    (vals : List (List (Option Value))) (empty : Value) :
    Nat → Nat → List Value → List Nat → List (Nat × Nat)
  | _, _, [], _ => []
  | i, offset, hd :: hs, mws =>
    let off := if i ≠ 0 then offset + midw else offset
    let mw := calcWidthStep tab vals empty i off hd (mws.headD 0)
    (off, mw) :: calcWidthAux tab midw hasWrapping border vals empty (i + 1)
      (off + mw + (if hasWrapping ∧ border ≠ 0 then 1 else 0)) hs mws.tail

/-- `TableEncoder.calcWidth` (encode.go): the walk starts at the row
style's left-edge width. -/
def calcWidth (tab leftw midw : Nat) (hasWrapping : Bool) (border : Nat)
    (headers : List Value) (vals : List (List (Option Value))) (empty : Value)
    (mws : List Nat) : List (Nat × Nat) :=
  calcWidthAux tab midw hasWrapping border vals empty 0 leftw headers mws

/-- The per-batch recomputation of `maxWidths` across an `Encode` call:
each batch's `calcWidth` feeds the next (encode.go, the loop of
`Encode`). -/
def calcWidths (tab leftw midw : Nat) (hasWrapping : Bool) (border : Nat)
    (headers : List Value) (empty : Value)
    (batches : List (List (List (Option Value)))) (mws : List Nat) : List Nat :=
  batches.foldl
    (fun mw batch =>
      (calcWidth tab leftw midw hasWrapping border headers batch empty mw).map Prod.snd)
    mws

theorem foldl_max_init_le {α : Type} (g : α → Nat) (l : List α) :
    ∀ b, b ≤ l.foldl (fun acc x => max acc (g x)) b := by
  induction l with
  | nil => intro b; exact le_refl b
  | cons x xs ih =>
    intro b
    rw [List.foldl_cons]
    exact le_trans (Nat.le_max_left b (g x)) (ih _)

theorem getD_zero_headD {α : Type} (l : List α) (d : α) : l.getD 0 d = l.headD d := by
  cases l <;> rfl

theorem getD_succ_tail {α : Type} (l : List α) (k : Nat) (d : α) :
    l.tail.getD k d = l.getD (k + 1) d := by
  cases l <;> rfl

theorem calcWidthAux_spec (tab midw : Nat) (hasWrapping : Bool) (border : Nat)
    (vals : List (List (Option Value))) (empty : Value) :
    ∀ (hs : List Value) (i offset : Nat) (mws : List Nat),
      (calcWidthAux tab midw hasWrapping border vals empty i offset hs mws).length
          = hs.length ∧
      ∀ k, k < hs.length →
        mws.getD k 0 ≤
          ((calcWidthAux tab midw hasWrapping border vals empty i offset hs mws).getD
            k (0, 0)).2 ∧
        (hs.getD k {}).MaxWidth
            ((calcWidthAux tab midw hasWrapping border vals empty i offset hs mws).getD
              k (0, 0)).1 tab ≤
          ((calcWidthAux tab midw hasWrapping border vals empty i offset hs mws).getD
            k (0, 0)).2 := by
  intro hs
  induction hs with
  | nil =>
    intro i offset mws
    exact ⟨rfl, fun k hk => absurd hk (by simp)⟩
  | cons hd hs ih =>
    intro i offset mws
    constructor
    · show (_ :: _).length = _
      simp only [List.length_cons]
      exact congrArg (· + 1) (ih _ _ _).1
    · intro k hk
      cases k with
      | zero =>
        constructor
        · show mws.getD 0 0 ≤ calcWidthStep tab vals empty i _ hd (mws.headD 0)
          rw [getD_zero_headD]
          exact le_trans (Nat.le_max_left _ _) (foldl_max_init_le _ _ _)
        · show (hd.MaxWidth _ tab) ≤ calcWidthStep tab vals empty i _ hd (mws.headD 0)
          exact le_trans (Nat.le_max_right _ _) (foldl_max_init_le _ _ _)
      | succ k0 =>
        have hrec := (ih (i + 1)
          ((if i ≠ 0 then offset + midw else offset) +
            calcWidthStep tab vals empty i (if i ≠ 0 then offset + midw else offset) hd
              (mws.headD 0) +
            (if hasWrapping ∧ border ≠ 0 then 1 else 0)) mws.tail).2 k0
          (by simp at hk; omega)
        rw [getD_succ_tail] at hrec
        exact hrec

set_option maxHeartbeats 800000 in
/-- C3: within one `Encode`, each `maxWidths[i]` never shrinks: after a
`calcWidth` pass over a batch it is at least its previous value and at
least the header's `MaxWidth` at that column's offset, and after any
sequence of batch passes it is still at least the user-supplied initial
minimum. -/
theorem calcWidth_monotone (tab leftw midw : Nat) (hasWrapping : Bool) (border : Nat)
    (headers : List Value) (vals : List (List (Option Value))) (empty : Value)
    (mws : List Nat) (batches : List (List (List (Option Value)))) :
    (calcWidth tab leftw midw hasWrapping border headers vals empty mws).length
        = headers.length ∧
    (∀ k, k < headers.length →
      mws.getD k 0 ≤
        ((calcWidth tab leftw midw hasWrapping border headers vals empty mws).getD
          k (0, 0)).2 ∧
      (headers.getD k {}).MaxWidth
          ((calcWidth tab leftw midw hasWrapping border headers vals empty mws).getD
            k (0, 0)).1 tab ≤
        ((calcWidth tab leftw midw hasWrapping border headers vals empty mws).getD
          k (0, 0)).2) ∧
    (∀ k, k < headers.length →
      mws.getD k 0 ≤
        (calcWidths tab leftw midw hasWrapping border headers empty batches mws).getD
          k 0) := by
  refine ⟨(calcWidthAux_spec tab midw hasWrapping border vals empty headers 0 leftw mws).1,
    (calcWidthAux_spec tab midw hasWrapping border vals empty headers 0 leftw mws).2, ?_⟩
  have hstep : ∀ (batch : List (List (Option Value))) (mw : List Nat) (k : Nat),
      k < headers.length →
      mw.getD k 0 ≤
        ((calcWidth tab leftw midw hasWrapping border headers batch empty mw).map
          Prod.snd).getD k 0 := by
    intro batch mw k hk
    have hlen :=
      (calcWidthAux_spec tab midw hasWrapping border batch empty headers 0 leftw mw).1
    have hmono :=
      ((calcWidthAux_spec tab midw hasWrapping border batch empty headers 0 leftw mw).2
        k hk).1
    have hget : ((calcWidth tab leftw midw hasWrapping border headers batch empty mw).map
        Prod.snd).getD k 0 =
        ((calcWidth tab leftw midw hasWrapping border headers batch empty mw).getD
          k (0, 0)).2 := by
      have hk2 : k < (calcWidth tab leftw midw hasWrapping border headers batch empty
          mw).length := by
        unfold calcWidth
        rw [hlen]
        exact hk
      rw [List.getD_eq_getElem?_getD, List.getElem?_map,
        List.getD_eq_getElem?_getD, List.getElem?_eq_getElem hk2]
      rfl
    rw [hget]
    exact hmono
  unfold calcWidths
  clear vals
  induction batches generalizing mws with
  | nil => intro k hk; exact le_refl _
  | cons b bs ih =>
    intro k hk
    rw [List.foldl_cons]
    exact le_trans (hstep b mws k hk) (ih _ k hk)

/-- Witness for C3 at a concrete header, cell, and initial minimum. -/
theorem calcWidth_monotone_witness :
    (calcWidth 8 1 3 true 1 [FormatBytes extASCII {} [97, 98]]
        [[some (FormatBytes extASCII {} [99, 100, 101])]] {} [5]).length = 1 ∧
      5 ≤ ((calcWidth 8 1 3 true 1 [FormatBytes extASCII {} [97, 98]]
        [[some (FormatBytes extASCII {} [99, 100, 101])]] {} [5]).getD 0 (0, 0)).2 ∧
      2 ≤ ((calcWidth 8 1 3 true 1 [FormatBytes extASCII {} [97, 98]]
        [[some (FormatBytes extASCII {} [99, 100, 101])]] {} [5]).getD 0 (0, 0)).2 ∧
      5 ≤ (calcWidths 8 1 3 true 1 [FormatBytes extASCII {} [97, 98]] {}
        [[[some (FormatBytes extASCII {} [99, 100, 101])]]] [5]).getD 0 0 := by
  refine ⟨(calcWidth_monotone 8 1 3 true 1 [FormatBytes extASCII {} [97, 98]]
      [[some (FormatBytes extASCII {} [99, 100, 101])]] {} [5] []).1, ?_, ?_, ?_⟩
  · exact ((calcWidth_monotone 8 1 3 true 1 [FormatBytes extASCII {} [97, 98]]
      [[some (FormatBytes extASCII {} [99, 100, 101])]] {} [5] []).2.1 0 (by decide)).1
  · exact le_trans (by decide)
      (((calcWidth_monotone 8 1 3 true 1 [FormatBytes extASCII {} [97, 98]]
        [[some (FormatBytes extASCII {} [99, 100, 101])]] {} [5] []).2.1 0 (by decide)).2)
  · exact (calcWidth_monotone 8 1 3 true 1 [FormatBytes extASCII {} [97, 98]] [] {}
      [5] [[[some (FormatBytes extASCII {} [99, 100, 101])]]]).2.2 0 (by decide)

/-- A result-set method invocation, for recording the order of calls
`Encode` makes on its result set. -/
inductive RSCall where
  | columns
  | next
  | scan
deriving DecidableEq, Repr

/-- A result set as the table encoder consumes it: its column names and
its remaining rows. -/
structure ResultSetM where
  cols : List (List Nat)
  rows : List (List (List Nat))
deriving DecidableEq, Repr

/-- The batching of `TableEncoder.nextResults` (encode.go): batches of
`count` rows, or a single batch of everything when `count = 0`; the
fuel only bounds the recursion and is irrelevant at the row count. -/
def goChunks {α : Type} (count : Nat) : Nat → List α → List (List α)
  | _, [] => []
  | 0, _ => []
  | fuel + 1, l =>
    if count = 0 then [l]
    else l.take count :: goChunks count fuel (l.drop count)

/-- The batches successive `nextResults` calls deliver to the `Encode`
loop. -/
def batchesOf {α : Type} (count : Nat) (rows : List α) : List (List α) :=
  goChunks count rows.length rows

/-- `TableEncoder.Encode` (encode.go): the nil-result-set check, the
`Columns` call, the zero-columns check, then the batched row loop.
Rendering is abstracted: `render` produces the bytes written for one
(indexed) non-empty batch — covering the header written before the
first batch, the rows, and any border — and `summary` the bytes of
`summarize`.  The second component records the result-set methods
invoked in order: `Columns` once, then one `Next` and one `Scan` per
row (the model records a single trailing failed `Next` ending the
loop). -/
def tableEncode (render : Nat → List (List (List Nat)) → List Nat) (summary : List Nat)
    (count : Nat) (rs : Option ResultSetM) : Except GoError (List Nat) × List RSCall :=
  match rs with
  | none => (.error .resultSetIsNil, [])
  | some rs =>
    if rs.cols.length = 0 then (.error .resultSetHasNoColumns, [.columns])
    else
      (.ok ((((batchesOf count rs.rows).enum).map (fun p => render p.1 p.2)).flatten
          ++ summary),
        .columns :: ((rs.rows.flatMap (fun _ => [.next, .scan])) ++ [.next]))

/-- C8: `Encode` on a nil result set fails with the
result-set-is-nil error having called no result-set method at all, and
on a result set reporting zero columns it fails with the
result-set-has-no-columns error having called only `Columns` — in both
cases no `Next` or `Scan` happens before the error. -/
theorem tableEncode_errors (render : Nat → List (List (List Nat)) → List Nat)
    (summary : List Nat) (count : Nat) :
    tableEncode render summary count none = (.error .resultSetIsNil, []) ∧
    (∀ rs : ResultSetM, rs.cols.length = 0 →
      tableEncode render summary count (some rs) =
        (.error .resultSetHasNoColumns, [.columns])) := by
  refine ⟨rfl, ?_⟩
  intro rs h
  unfold tableEncode
  dsimp only
  rw [if_pos h]

/-- Witness for C8: a column-less result set that still carries a row
is rejected with only the `Columns` call recorded. -/
theorem tableEncode_errors_witness :
    tableEncode (fun _ _ => []) [] 0 (some ⟨[], [[[97]]]⟩) =
      (.error .resultSetHasNoColumns, [.columns]) :=
  (tableEncode_errors (fun _ _ => []) [] 0).2 ⟨[], [[[97]]]⟩ rfl

/-- `newline` (util.go): the platform newline, `\r\n` on windows and
`\n` elsewhere. -/
def newlinePlatform (windows : Bool) : List Nat := if windows then [13, 10] else [10]

/-- The result-set loop of `TableEncoder.EncodeAll` (encode.go): for
each further result set, write the platform newline then encode it;
after the loop, write the platform newline once. -/
def encodeAllAux (encodeOne : ResultSetM → Except GoError (List Nat)) (nl : List Nat) :
    List ResultSetM → Except GoError (List Nat)
  | [] => .ok nl
  | r :: rest =>
    match encodeOne r with
    | .error e => .error e
    | .ok out =>
      match encodeAllAux encodeOne nl rest with
      | .error e => .error e
      | .ok tail => .ok (nl ++ out ++ tail)

/-- `TableEncoder.EncodeAll` (encode.go): encode the current result
set, then the remaining ones each preceded by the platform newline,
then write one final platform newline. -/
def encodeAllGo (encodeOne : ResultSetM → Except GoError (List Nat)) (nl : List Nat)
    (first : ResultSetM) (rest : List ResultSetM) : Except GoError (List Nat) :=
  match encodeOne first with
  | .error e => .error e
  | .ok out =>
    match encodeAllAux encodeOne nl rest with
    | .error e => .error e
    | .ok tail => .ok (out ++ tail)

theorem encodeAllAux_output (encodeOne : ResultSetM → Except GoError (List Nat))
    (nl : List Nat) : ∀ (rest : List ResultSetM) (out : List Nat),
    encodeAllAux encodeOne nl rest = .ok out →
    ∃ outs, List.Forall₂ (fun r o => encodeOne r = .ok o) rest outs ∧
      out = (outs.map (fun o => nl ++ o)).flatten ++ nl := by
  intro rest
  induction rest with
  | nil =>
    intro out h
    injection h with ho
    exact ⟨[], List.Forall₂.nil, by simp [ho.symm]⟩
  | cons r rs ih =>
    intro out h
    unfold encodeAllAux at h
    cases he : encodeOne r with
    | error e =>
      simp only [he] at h
      exact Except.noConfusion h
    | ok o =>
      simp only [he] at h
      cases ha : encodeAllAux encodeOne nl rs with
      | error e =>
        simp only [ha] at h
        exact Except.noConfusion h
      | ok tail =>
        simp only [ha] at h
        injection h with ho
        obtain ⟨outs, hf, htail⟩ := ih tail ha
        refine ⟨o :: outs, List.Forall₂.cons he hf, ?_⟩
        rw [← ho, htail]
        simp [List.append_assoc]

/-- C10: whenever `EncodeAll` succeeds, its output is the first result
set's rendering, then — for each further result set — one platform
newline followed by that set's rendering, then exactly one final
platform newline; in particular the output always ends with the
(nonempty) platform newline, even for a single result set. -/
theorem encodeAllGo_output (encodeOne : ResultSetM → Except GoError (List Nat))
    (windows : Bool) (first : ResultSetM) (rest : List ResultSetM) (out : List Nat)
    (h : encodeAllGo encodeOne (newlinePlatform windows) first rest = .ok out) :
    ∃ o1 outs, encodeOne first = .ok o1 ∧
      List.Forall₂ (fun r o => encodeOne r = .ok o) rest outs ∧
      out = o1 ++ (outs.map (fun o => newlinePlatform windows ++ o)).flatten ++
        newlinePlatform windows ∧
      (∃ pre, out = pre ++ newlinePlatform windows) ∧
      newlinePlatform windows ≠ [] := by
  unfold encodeAllGo at h
  cases he : encodeOne first with
  | error e =>
    simp only [he] at h
    exact Except.noConfusion h
  | ok o1 =>
    simp only [he] at h
    cases ha : encodeAllAux encodeOne (newlinePlatform windows) rest with
    | error e =>
      simp only [ha] at h
      exact Except.noConfusion h
    | ok tail =>
      simp only [ha] at h
      injection h with ho
      obtain ⟨outs, hf, htail⟩ := encodeAllAux_output encodeOne _ rest tail ha
      refine ⟨o1, outs, rfl, hf, ?_, ?_, ?_⟩
      · rw [← ho, htail, List.append_assoc]
      · refine ⟨o1 ++ (outs.map (fun o => newlinePlatform windows ++ o)).flatten, ?_⟩
        rw [← ho, htail]
        simp [List.append_assoc]
      · cases windows <;> simp [newlinePlatform]

/-- Witness for C10 with one further result set: the output is the two
renderings joined by one newline separator, with one trailing
newline. -/
theorem encodeAllGo_output_witness :
    ∃ o1 outs,
      (fun _ : ResultSetM => (Except.ok [65] : Except GoError (List Nat))) ⟨[[99]], []⟩ =
        .ok o1 ∧
      List.Forall₂
        (fun r o => (fun _ : ResultSetM => (Except.ok [65] : Except GoError (List Nat))) r
          = .ok o) [⟨[[99]], []⟩] outs ∧
      ([65, 10, 65, 10] : List Nat) = o1 ++
        (outs.map (fun o => newlinePlatform false ++ o)).flatten ++
        newlinePlatform false ∧
      (∃ pre, ([65, 10, 65, 10] : List Nat) = pre ++ newlinePlatform false) ∧
      newlinePlatform false ≠ [] :=
  encodeAllGo_output (fun _ => .ok [65]) false ⟨[[99]], []⟩ [⟨[[99]], []⟩]
    [65, 10, 65, 10] (by decide)

end Tblfmt
